import Mathlib

/-!
Verification development for the SkySentry realtime tracking core
(`src/app/ultralytics/yoloe_rt_smoothed.py`).

Embedding conventions:
* Python `int` values (frame indices, class indices, global ids, pixel
  coordinates, configuration bounds) are modelled as `ℤ`; Python floats
  (centers, distances, smoothing values, 3D coordinates) are modelled as
  exact rationals `ℚ`, so `0.2` becomes `1/5`, `0.65` becomes `13/20`, etc.
* Python `dict`s (which preserve insertion order) are modelled as
  association lists with insert-or-overwrite-in-place semantics
  (`ainsert` / `alookup`); Python `list`s are Lean lists.
* `_center_dist` is `hypot`, a square root.  All its uses compare a
  distance against a threshold (`dist <= radius`, `dist < best_dist`,
  `hypot(...) > teleport_thresh`); for nonnegative thresholds these are
  equivalent to the same comparisons on squared distances, so the
  embedding compares squares (`dist2`) throughout.
-/

namespace SkySentry

/-- Ordered-dict lookup: value of the first entry with the given key. -/
def alookup {κ α : Type} [DecidableEq κ] : List (κ × α) → κ → Option α
  | [], _ => none
  | p :: rest, k => if p.1 = k then some p.2 else alookup rest k

/-- Ordered-dict insert: overwrite in place if the key is present
(Python dicts keep the original position), otherwise append at the end. -/
def ainsert {κ α : Type} [DecidableEq κ] : List (κ × α) → κ → α → List (κ × α)
  | [], k, v => [(k, v)]
  | p :: rest, k, v => if p.1 = k then (k, v) :: rest else p :: ainsert rest k v

/-- A pixel- or world-space point (pair of floats). -/
abbrev Pt := ℚ × ℚ

/-- One parsed detection, as produced by `_parse_detections`:
class index, bbox `(x1,y1,x2,y2)`, pixel center.  (The optional mask is
never consulted by the identity manager and is omitted.) -/
structure Det where
  cls_idx : ℤ
  bbox : ℤ × ℤ × ℤ × ℤ
  center : Pt
  deriving Repr, DecidableEq

/-- A track record as stored in `IdentityManager.active` / `.inactive`:
`{cls, bbox, center, last_frame}`. -/
structure TrackRec where
  cls : ℤ
  bbox : ℤ × ℤ × ℤ × ℤ
  center : Pt
  last_frame : ℤ
  deriving Repr, DecidableEq

/-- The `IdentityManager` object state.  `active` is a dict gid → record
(insertion ordered); `inactive` is a list of records tagged with their
gid (the Python dicts `{"gid": gid, **rec}`). -/
structure IMState where
  classes : List String
  reid_max_radius_px : ℤ
  reid_max_frames : ℤ
  next_gid : ℤ
  active : List (ℤ × TrackRec)
  inactive : List (ℤ × TrackRec)
  cls_group : List (ℤ × ℤ)
  deriving Repr, DecidableEq

/-- Squared Euclidean distance between two points (`_center_dist` squared;
see the header note on modelling `hypot` comparisons by squares). -/
def dist2 (a b : Pt) : ℚ := (a.1 - b.1) ^ 2 + (a.2 - b.2) ^ 2

/-- `name_to_idx` of `IdentityManager.__init__`: the dict comprehension
`{name: i for i, name in enumerate(classes)}` maps a name to the index of
its last occurrence. -/
def nameToIdx (classes : List String) (n : String) : Option ℤ :=
  ((classes.enum.filter (fun p => p.2 = n)).getLast?).map (fun p => (p.1 : ℤ))

/-- The continuity-group construction loop of `IdentityManager.__init__`:
for each group (in order), collect the indices of its known member names;
groups with fewer than 2 known members are dropped; otherwise every member
index is mapped to the running group id, which is then incremented. -/
def buildClsGroup (classes : List String) (groups : List (List String)) :
    List (ℤ × ℤ) :=
  (groups.foldl
    (fun (acc : List (ℤ × ℤ) × ℤ) group =>
      let indices := group.filterMap (nameToIdx classes)
      if 2 ≤ indices.length then
        (indices.foldl (fun m ci => ainsert m ci acc.2) acc.1, acc.2 + 1)
      else acc)
    ([], 0)).1

/-- `IdentityManager.__init__`. -/
def initIM (classes : List String) (groups : List (List String))
    (radius frames : ℤ) : IMState :=
  { classes := classes
    reid_max_radius_px := radius
    reid_max_frames := frames
    next_gid := 0
    active := []
    inactive := []
    cls_group := buildClsGroup classes groups }

/-- `IdentityManager._same_continuity_class`. -/
def same_continuity_class (st : IMState) (ci_a ci_b : ℤ) : Bool :=
  if ci_a = ci_b then true
  else
    match alookup st.cls_group ci_a, alookup st.cls_group ci_b with
    | some ga, some gb => ga = gb
    | _, _ => false

/-- The running best candidate of the `_match_pool` loop:
gid, squared distance, position in the pool, and the pool item itself. -/
structure BestCand where
  gid : ℤ
  d2 : ℚ
  pos : ℕ
  item : TrackRec
  deriving Repr, DecidableEq

/-- `dist < best_dist` where the initial best is `float("inf")`. -/
def betterThan (d2 : ℚ) : Option BestCand → Bool
  | none => true
  | some b => decide (d2 < b.d2)

/-- One iteration of the `_match_pool` candidate loop over
`(idx, item)` pairs. -/
def poolStep (st : IMState) (det : Det) (frame : ℤ)
    (best : Option BestCand) (p : ℕ × ℤ × TrackRec) : Option BestCand :=
  let age := frame - p.2.2.last_frame
  if age < 0 ∨ st.reid_max_frames < age then best
  else if same_continuity_class st p.2.2.cls det.cls_idx = false then best
  else
    let d2 := dist2 det.center p.2.2.center
    if d2 ≤ (st.reid_max_radius_px : ℚ) ^ 2 ∧ betterThan d2 best = true then
      some ⟨p.2.1, d2, p.1, p.2.2⟩
    else best

/-- The `_match_pool` candidate loop. -/
def poolGo (st : IMState) (det : Det) (frame : ℤ) :
    List (ℕ × ℤ × TrackRec) → Option BestCand → Option BestCand
  | [], best => best
  | p :: l, best => poolGo st det frame l (poolStep st det frame best p)

/-- `IdentityManager._match_pool`: returns the matched gid (if any), the
pool after `pool.pop(best_pos)`, and the manager state after
`self.active[best_gid] = {...}` (note the new record keeps the *item's*
class but takes the *detection's* bbox/center and the current frame). -/
def matchPool (st : IMState) (det : Det) (pool : List (ℤ × TrackRec))
    (frame : ℤ) : Option ℤ × List (ℤ × TrackRec) × IMState :=
  match poolGo st det frame pool.enum none with
  | none => (none, pool, st)
  | some b =>
      let newRec : TrackRec :=
        { cls := b.item.cls, bbox := det.bbox, center := det.center
          last_frame := frame }
      (some b.gid, pool.eraseIdx b.pos,
       { st with active := ainsert st.active b.gid newRec })

/-- Phase 1 of `assign` ("Try active first"): for each detection in input
order, `_match_pool` is called on a **fresh copy** of `self.active`
(the list comprehension), whose pop is therefore discarded, while the
in-place update of `self.active` persists; the gid is recorded only when
not already used. -/
def phase1Go (frame : ℤ) :
    List (ℕ × Det) → List ℤ × List (ℕ × ℤ) × IMState →
    List ℤ × List (ℕ × ℤ) × IMState
  | [], acc => acc
  | p :: l, (used, map, st) =>
      let r := matchPool st p.2 st.active frame
      let st1 := r.2.2
      match r.1 with
      | some g =>
          if used.contains g then phase1Go frame l (used, map, st1)
          else phase1Go frame l (g :: used, ainsert map p.1 g, st1)
      | none => phase1Go frame l (used, map, st1)

/-- Phase 2 of `assign` ("Then inactive"): unmatched detections are
matched against `self.inactive` itself, so the pop persists. -/
def phase2Go (frame : ℤ) :
    List (ℕ × Det) → List ℤ × List (ℕ × ℤ) × IMState →
    List ℤ × List (ℕ × ℤ) × IMState
  | [], acc => acc
  | p :: l, (used, map, st) =>
      if (alookup map p.1).isSome then phase2Go frame l (used, map, st)
      else
        let r := matchPool st p.2 st.inactive frame
        let st1 := { r.2.2 with inactive := r.2.1 }
        match r.1 with
        | some g =>
            if used.contains g then phase2Go frame l (used, map, st1)
            else phase2Go frame l (g :: used, ainsert map p.1 g, st1)
        | none => phase2Go frame l (used, map, st1)

/-- Phase 3 of `assign` ("New IDs"): `_new_gid` for the still-unmatched
detections.  The third accumulator component is a ghost observation
recording, in order, the gids returned by `_new_gid`; it does not alter
the state transition. -/
def phase3Go (frame : ℤ) :
    List (ℕ × Det) → List ℤ × List (ℕ × ℤ) × List ℤ × IMState →
    List ℤ × List (ℕ × ℤ) × List ℤ × IMState
  | [], acc => acc
  | p :: l, (used, map, alloc, st) =>
      if (alookup map p.1).isSome then phase3Go frame l (used, map, alloc, st)
      else
        let gid := st.next_gid
        let newRec : TrackRec :=
          { cls := p.2.cls_idx, bbox := p.2.bbox, center := p.2.center
            last_frame := frame }
        let st1 := { st with
          next_gid := st.next_gid + 1
          active := ainsert st.active gid newRec }
        phase3Go frame l (gid :: used, ainsert map p.1 gid, alloc ++ [gid], st1)

/-- The final block of `assign`: demote untouched active records to the
inactive list (in active-dict order), then prune inactive records whose
age exceeds `reid_max_frames`. -/
def demotePrune (st : IMState) (frame : ℤ) (map : List (ℕ × ℤ)) : IMState :=
  let updated := map.map (fun q => q.2)
  let stay := st.active.filter (fun p => updated.contains p.1)
  let moved := st.active.filter (fun p => !updated.contains p.1)
  { st with
    active := stay
    inactive := (st.inactive ++ moved).filter
      (fun p => decide (frame - p.2.last_frame ≤ st.reid_max_frames)) }

/-- The result of one `assign` call: the detection-index → gid mapping,
the ghost list of freshly allocated gids, and the new manager state. -/
structure AssignOut where
  mapping : List (ℕ × ℤ)
  alloc : List ℤ
  st : IMState
  deriving Repr, DecidableEq

/-- `IdentityManager.assign`. -/
def assign (st : IMState) (frame : ℤ) (dets : List Det) : AssignOut :=
  let a1 := phase1Go frame dets.enum ([], [], st)
  let a2 := phase2Go frame dets.enum a1
  let a3 := phase3Go frame dets.enum (a2.1, a2.2.1, [], a2.2.2)
  { mapping := a3.2.1, alloc := a3.2.2.1
    st := demotePrune a3.2.2.2 frame a3.2.1 }

/-- A session: a sequence of `assign` calls, each given a frame index and
a detection list, threading the manager state.  Returns the outputs of
every call together with the final state. -/
def runSession (st : IMState) :
    List (ℤ × List Det) → List AssignOut × IMState
  | [] => ([], st)
  | c :: cs =>
      let o := assign st c.1 c.2
      let r := runSession o.st cs
      (o :: r.1, r.2)

/-- `[a, a+1, ..., a+n-1]` as integers. -/
def intRange (a : ℤ) (n : ℕ) : List ℤ :=
  (List.range n).map (fun i : ℕ => a + (i : ℤ))

/-- A camera-space / world-space 3D vector. -/
abbrev Vec3 := ℚ × ℚ × ℚ

/-- A 3×3 matrix given by its rows (the `R_wc` parameter of
`_estimate_3d_for_bbox`; the module builds it with `_rot_x`, whose
sines/cosines are irrational — the estimator takes it as data). -/
structure Mat3 where
  r0 : Vec3
  r1 : Vec3
  r2 : Vec3
  deriving Repr, DecidableEq

/-- Dot product of two 3-vectors. -/
def dot3 (a b : Vec3) : ℚ := a.1 * b.1 + a.2.1 * b.2.1 + a.2.2 * b.2.2

/-- Matrix-vector product `R @ pc`. -/
def mulVec3 (m : Mat3) (v : Vec3) : Vec3 :=
  (dot3 m.r0 v, dot3 m.r1 v, dot3 m.r2 v)

/-- Componentwise vector addition. -/
def addVec3 (a b : Vec3) : Vec3 := (a.1 + b.1, a.2.1 + b.2.1, a.2.2 + b.2.2)

/-- `_depth_from_height_px`: `(fy_px * true_h_m) / float(max(1, int(h_px)))`. -/
def depth_from_height_px (h_px : ℤ) (true_h_m fy_px : ℚ) : ℚ :=
  (fy_px * true_h_m) / ((max 1 h_px : ℤ) : ℚ)

/-- `_cam_xy_from_pixel`. -/
def cam_xy_from_pixel (u v Zc fx_px fy_px cx cy : ℚ) : ℚ × ℚ :=
  ((u - cx) * Zc / fx_px, (v - cy) * Zc / fy_px)

/-- The 3D position estimate (`{Xc,Yc,Zc,Xw,Yw,Zw}`). -/
structure Est3D where
  Xc : ℚ
  Yc : ℚ
  Zc : ℚ
  Xw : ℚ
  Yw : ℚ
  Zw : ℚ
  deriving Repr, DecidableEq

/-- `_estimate_3d_for_bbox`: returns `none` (the empty dict) when the
label has no configured height, otherwise the full 3D estimate from the
bottom-center anchor of the bbox. -/
def estimate_3d_for_bbox (bbox : ℤ × ℤ × ℤ × ℤ) (label : String)
    (fx_px fy_px cx cy : ℚ) (R_wc : Mat3) (cam_pos_w : Vec3)
    (obj_heights : List (String × ℚ)) : Option Est3D :=
  let x1 := bbox.1
  let y1 := bbox.2.1
  let x2 := bbox.2.2.1
  let y2 := bbox.2.2.2
  let h_px := max 1 (y2 - y1)
  let u := ((x1 : ℚ) + (x2 : ℚ)) * (1 / 2)
  let v := (y2 : ℚ)
  match alookup obj_heights label with
  | none => none
  | some true_h =>
      let Zc := depth_from_height_px h_px true_h fy_px
      let xy := cam_xy_from_pixel u v Zc fx_px fy_px cx cy
      let pw := addVec3 cam_pos_w (mulVec3 R_wc (xy.1, xy.2, Zc))
      some { Xc := xy.1, Yc := xy.2, Zc := Zc
             Xw := pw.1, Yw := pw.2.1, Zw := pw.2.2 }

/-! ### Track smoother (`_TrackSmoother`)

Smoothing constants from the module header, as exact rationals. -/

/-- `SMOOTH_HISTORY_FRAMES = 10`. -/
def SMOOTH_HISTORY_FRAMES : ℕ := 10

/-- `SMOOTH_PENALTY = 0.65`. -/
def SMOOTH_PENALTY : ℚ := 13 / 20

/-- `GAP_RESET_FRAMES = 60`. -/
def GAP_RESET_FRAMES : ℤ := 60

/-- `TELEPORT_THRESH_PX = 300.0`. -/
def TELEPORT_THRESH_PX : ℚ := 300

/-- `TELEPORT_THRESH_M = 1.5`. -/
def TELEPORT_THRESH_M : ℚ := 3 / 2

/-- One history entry `(frame_idx, x, y)`. -/
abbrev HistEntry := ℤ × ℚ × ℚ

/-- A per-gid history deque. -/
abbrev Hist := List HistEntry

/-- A `gid → deque` map (`hist_px` / `hist_w`). -/
abbrev HistMap := List (ℤ × Hist)

/-- Append to a `deque(maxlen=n)`: when full, the oldest entries fall off
the left. -/
def dequeAppend (maxlen : ℕ) (q : Hist) (v : HistEntry) : Hist :=
  if maxlen ≤ q.length then (q.drop (q.length + 1 - maxlen)) ++ [v]
  else q ++ [v]

/-- The abstract type of `_avg_dir_2d`'s direction computation over the
recent deltas (lines 234–247: slice the last `SMOOTH_HISTORY_FRAMES`
points, sum the unit vectors of consecutive deltas longer than `1e-6`,
return the normalized sum, or `None` when it is shorter than `1e-6`).
The unit normalisations divide by Euclidean norms — square roots,
irrational over `ℚ` — so this part is kept as a parameter: every theorem
below is proved for **all** values of it, in particular the code's. -/
abbrev DirFn := Hist → Option (ℚ × ℚ)

/-- A concrete `DirFn` used to instantiate closed statements at inputs
where the smoother provably never consults the direction computation
(history shorter than 2 entries). -/
def dirNone : DirFn := fun _ => none

/-- `_avg_dir_2d`: `None` when the queue has fewer than 2 points,
otherwise the (abstracted) average unit direction. -/
def avg_dir_2d (dir : DirFn) (q : Hist) : Option (ℚ × ℚ) :=
  if q.length < 2 then none else dir q

/-- The last element of a nonempty history (`q[-1]`); the default is
never reached at the guarded call sites. -/
def lastEntry (q : Hist) : HistEntry := q.getLast?.getD (0, 0, 0)

/-- `_TrackSmoother._smooth_point`: gap reset, teleport reset
(comparisons on squared distances, see header), seeding, and the
direction-biased / mild-EMA update; returns the smoothed point and the
updated history map.  The deque is created by `setdefault` with
`maxlen = SMOOTH_HISTORY_FRAMES + 2`. -/
def smooth_point (dir : DirFn) (gid : ℤ) (frame_idx : ℤ) (raw_pt : Pt)
    (hist_map : HistMap) (teleport_thresh : ℚ) : Pt × HistMap :=
  let x := raw_pt.1
  let y := raw_pt.2
  let q0 := (alookup hist_map gid).getD []
  -- reset on big gaps
  let q1 := if q0 ≠ [] ∧ GAP_RESET_FRAMES ≤ frame_idx - (lastEntry q0).1
    then [] else q0
  -- teleport reset
  let q2 := if q1 ≠ [] ∧
      teleport_thresh ^ 2 < dist2 (x, y) ((lastEntry q1).2.1, (lastEntry q1).2.2)
    then [] else q1
  if q2 = [] then
    ((x, y), ainsert hist_map gid
      (dequeAppend (SMOOTH_HISTORY_FRAMES + 2) q2 (frame_idx, x, y)))
  else
    let px := (lastEntry q2).2.1
    let py := (lastEntry q2).2.2
    let vx := x - px
    let vy := y - py
    let s :=
      match avg_dir_2d dir q2 with
      | none =>
          -- not enough motion history; mild EMA towards raw, alpha = 0.5
          (px + (1 / 2) * vx, py + (1 / 2) * vy)
      | some d =>
          let v_par_mag := vx * d.1 + vy * d.2
          let v_par := (d.1 * v_par_mag, d.2 * v_par_mag)
          let v_perp := ((vx - v_par.1) * (1 - SMOOTH_PENALTY),
                         (vy - v_par.2) * (1 - SMOOTH_PENALTY))
          (px + v_par.1 + v_perp.1, py + v_par.2 + v_perp.2)
    (s, ainsert hist_map gid
      (dequeAppend (SMOOTH_HISTORY_FRAMES + 2) q2 (frame_idx, s.1, s.2)))

/-- `_TrackSmoother.smooth_px`, acting on the `hist_px` map. -/
def smooth_px (dir : DirFn) (gid : ℤ) (frame_idx : ℤ) (cx cy : ℚ)
    (hist_px : HistMap) : Pt × HistMap :=
  smooth_point dir gid frame_idx (cx, cy) hist_px TELEPORT_THRESH_PX

/-- `_TrackSmoother.smooth_world`, acting on the `hist_w` map: when either
world coordinate is absent, both are returned unchanged and no history is
touched; otherwise the generic 2D smoother runs on `(Xw, Yw)`. -/
def smooth_world (dir : DirFn) (gid : ℤ) (frame_idx : ℤ)
    (Xw Yw : Option ℚ) (hist_w : HistMap) :
    (Option ℚ × Option ℚ) × HistMap :=
  match Xw, Yw with
  | some x, some y =>
      let r := smooth_point dir gid frame_idx (x, y) hist_w TELEPORT_THRESH_M
      ((some r.1.1, some r.1.2), r.2)
  | _, _ => ((Xw, Yw), hist_w)

/-! ### The public session object (`YoloeRealtime`) -/

/-- `DEFAULT_CLASSES`. -/
def DEFAULT_CLASSES : List String :=
  ["white bottle", "paper sign in hand", "paper air plane",
   "black bottle", "paper airplane in hand"]

/-- `DEFAULT_CONTINUITY_GROUPS` (member order inside a group does not
affect the built class-group map: all members receive the same id). -/
def DEFAULT_CONTINUITY_GROUPS : List (List String) :=
  [["paper air plane", "paper airplane in hand"],
   ["white bottle", "black bottle"]]

/-- `DEFAULT_OBJ_HEIGHTS_M`, floats as exact rationals. -/
def DEFAULT_OBJ_HEIGHTS_M : List (String × ℚ) :=
  [("white bottle", 3 / 20), ("black bottle", 1 / 5),
   ("paper sign in hand", 1 / 5), ("paper air plane", 3 / 20),
   ("paper airplane in hand", 3 / 20)]

/-- The session state of `YoloeRealtime` relevant to tracking:
construction-time configuration, the identity manager, the frame counter
and the smoother's two history maps.  (The detector model, weights,
device and the lazily-derived intrinsics are external collaborators and
carry no tracking state.) -/
structure RTState where
  classes : List String
  obj_heights_m : List (String × ℚ)
  cam_pitch_deg : ℚ
  cam_height_m : ℚ
  hfov_deg : ℚ
  vfov_deg : ℚ
  idman : IMState
  frame_idx : ℤ
  hist_px : HistMap
  hist_w : HistMap
  deriving Repr, DecidableEq

/-- `YoloeRealtime.__init__` (tracking-relevant part). -/
def mkRT (classes : List String) (continuity_groups : List (List String))
    (reid_max_radius_px reid_max_frames : ℤ)
    (obj_heights_m : List (String × ℚ))
    (cam_pitch_deg cam_height_m hfov_deg vfov_deg : ℚ) : RTState :=
  { classes := classes
    obj_heights_m := obj_heights_m
    cam_pitch_deg := cam_pitch_deg
    cam_height_m := cam_height_m
    hfov_deg := hfov_deg
    vfov_deg := vfov_deg
    idman := initIM classes continuity_groups reid_max_radius_px reid_max_frames
    frame_idx := 0
    hist_px := []
    hist_w := [] }

/-- `YoloeRealtime.reset_ids`: rebuilds the identity manager from
`self.classes`, the module-level `DEFAULT_CONTINUITY_GROUPS`, and the old
manager's radius/frames, replaces the smoother, and zeroes the frame
counter. -/
def reset_ids (rt : RTState) : RTState :=
  { rt with
    idman := initIM rt.classes DEFAULT_CONTINUITY_GROUPS
      rt.idman.reid_max_radius_px rt.idman.reid_max_frames
    frame_idx := 0
    hist_px := []
    hist_w := [] }

/-- The eligibility test a pool item must pass in the `_match_pool` loop
for a given detection: age within `[0, reid_max_frames]`, continuity
compatibility, and (squared) center distance within the re-id radius. -/
def eligible (st : IMState) (frame : ℤ) (det : Det) (item : TrackRec) : Prop :=
  0 ≤ frame - item.last_frame ∧
  frame - item.last_frame ≤ st.reid_max_frames ∧
  same_continuity_class st item.cls det.cls_idx = true ∧
  dist2 det.center item.center ≤ (st.reid_max_radius_px : ℚ) ^ 2

instance (st : IMState) (frame : ℤ) (det : Det) (item : TrackRec) :
    Decidable (eligible st frame det item) := by
  unfold eligible; infer_instance

/-- `g` does not occur as a key (gid) of the association list. -/
def keyAbsent {α : Type} (g : ℤ) (m : List (ℤ × α)) : Prop :=
  ∀ p ∈ m, p.1 ≠ g

/-- `g` does not occur as a value (assigned gid) of the mapping. -/
def valAbsent (g : ℤ) (m : List (ℕ × ℤ)) : Prop :=
  ∀ q ∈ m, q.2 ≠ g

/-- `g` is a purged gid: already allocated (below `next_gid`) but present
in neither pool. -/
def gidFree (g : ℤ) (st : IMState) : Prop :=
  g < st.next_gid ∧ keyAbsent g st.active ∧ keyAbsent g st.inactive

/-! ### Concrete scenario inputs -/

/-- A one-class manager owning a single active track (gid 0) whose last
center is the origin, seen at frame 0. -/
def exSt : IMState :=
  { classes := ["a"], reid_max_radius_px := 100, reid_max_frames := 10
    next_gid := 1, active := [(0, ⟨0, (0, 0, 10, 10), (0, 0), 0⟩)]
    inactive := [], cls_group := [] }

/-- Two frame-1 detections that both best-match the single active track:
the first at (1,0), the second at (10,0). -/
def exDets : List Det :=
  [⟨0, (0, 0, 10, 10), (1, 0)⟩, ⟨0, (0, 0, 10, 10), (10, 0)⟩]

/-- The identity rotation, used as a concrete `R_wc`. -/
def idMat : Mat3 := ⟨(1, 0, 0), (0, 1, 0), (0, 0, 1)⟩

/-- A session constructed with the default classes but **no** continuity
groups (the `continuity_groups=[]` argument), and otherwise default-like
configuration. -/
def rtC9 : RTState :=
  mkRT DEFAULT_CLASSES [] 240 180 DEFAULT_OBJ_HEIGHTS_M 60 (1/10)
    (133/2) (263/5)

/-- A two-class manager whose single continuity group contains both
classes (indices 0 and 1). -/
def wSt4 : IMState := initIM ["a", "b"] [["a", "b"]] 100 10

/-- A one-class manager in which gid 0 has been allocated and then purged
from both pools. -/
def stW5 : IMState :=
  { classes := ["a"], reid_max_radius_px := 100, reid_max_frames := 10
    next_gid := 1, active := [], inactive := [], cls_group := [] }

/-- The record `_match_pool` writes back into `self.active` on a match:
the pool item's class, the detection's bbox and center, the current
frame. -/
def mkHybrid (item : TrackRec) (det : Det) (frame : ℤ) : TrackRec :=
  { cls := item.cls, bbox := det.bbox, center := det.center
    last_frame := frame }

/-- The records the active pool can contain while phase 1 of `assign`
runs: the records present at call entry, plus records re-stamped in place
by `_match_pool` for one of the detections in `seen` (keeping the
record's class, taking that detection's bbox/center and the current
frame). -/
def activeReach (st0 : IMState) (seen : List Det) (frame : ℤ)
    (A : List (ℤ × TrackRec)) : Prop :=
  ∀ p ∈ A, p ∈ st0.active ∨
    ∃ q ∈ st0.active, ∃ d ∈ seen, p.2 = mkHybrid q.2 d frame

/-- A one-class manager with a small re-id radius (10 px) owning a single
active track at the origin. -/
def stW3 : IMState :=
  { classes := ["a"], reid_max_radius_px := 10, reid_max_frames := 100
    next_gid := 1, active := [(0, ⟨0, (0, 0, 4, 4), (0, 0), 0⟩)]
    inactive := [], cls_group := [] }

/-- A mixed frame: the first detection (at (1,0)) matches the active
track, the second (at (50,0)) is out of radius of everything. -/
def detsW3 : List Det :=
  [⟨0, (0, 0, 4, 4), (1, 0)⟩, ⟨0, (0, 0, 4, 4), (50, 0)⟩]

/-! ## Basic association-list lemmas -/

theorem alookup_ainsert {κ α : Type} [DecidableEq κ]
    (m : List (κ × α)) (k j : κ) (v : α) :
    alookup (ainsert m k v) j = if j = k then some v else alookup m j := by
  induction m with
  | nil =>
      by_cases h : j = k
      · simp [ainsert, alookup, h]
      · have hkj : ¬ k = j := fun hc => h hc.symm
        simp [ainsert, alookup, h, hkj]
  | cons p rest ih =>
      by_cases hp : p.1 = k
      · by_cases h : j = k
        · simp [ainsert, alookup, hp, h]
        · have hkj : ¬ k = j := fun hc => h hc.symm
          have hpj : ¬ p.1 = j := hp ▸ hkj
          simp [ainsert, alookup, hp, h, hkj, hpj]
      · by_cases hpj : p.1 = j
        · have hjk : ¬ j = k := fun hc => hp (hpj.trans hc)
          simp [ainsert, alookup, hp, hpj, hjk]
        · simp [ainsert, alookup, hp, hpj, ih]

theorem alookup_ainsert_isSome {κ α : Type} [DecidableEq κ]
    (m : List (κ × α)) (k j : κ) (v : α)
    (h : (alookup m j).isSome) : (alookup (ainsert m k v) j).isSome := by
  rw [alookup_ainsert]
  by_cases hj : j = k <;> simp [hj, h]

/-! ## Claim theorems: direct evaluations -/

/-- C2 — the code at the failing input: with one active track (gid 0,
center (0,0)) and two same-frame detections at (1,0) and (10,0) that both
select it, the first detection receives gid 0 and the second a fresh
gid 1 — but the active-phase `_match_pool` call for the **losing** second
detection still overwrites gid 0's record, which afterwards holds the
loser's center (10,0) and not the winner's (1,0): the claimed identity is
not removed from consideration and the winner's record update is lost. -/
theorem assign_loser_overwrites_claimed_record :
    (assign exSt 1 exDets).mapping = [(0, 0), (1, 1)] ∧
    alookup (assign exSt 1 exDets).st.active 0 =
      some ⟨0, (0, 0, 10, 10), (10, 0), 1⟩ ∧
    alookup (assign exSt 1 exDets).st.active 0 ≠
      some ⟨0, (0, 0, 10, 10), (1, 0), 1⟩ := by
  norm_num [assign, phase1Go, phase2Go, phase3Go, demotePrune, matchPool,
    poolGo, poolStep, betterThan, same_continuity_class, dist2, alookup,
    ainsert, exSt, exDets, List.enum, List.enumFrom]

/-- C9 — the code at the failing input: a session constructed with *no*
continuity groups has an empty class-group map, but `reset_ids` rebuilds
the identity manager from the module-level `DEFAULT_CONTINUITY_GROUPS`,
so after reset the map is the default two-group mapping — the
construction-time continuity configuration is not preserved, while the
radius, window, class list, calibration and the cleared state behave as
the claim says. -/
theorem reset_ids_replaces_continuity_groups :
    rtC9.idman.cls_group = [] ∧
    (reset_ids rtC9).idman.cls_group = [(2, 0), (4, 0), (0, 1), (3, 1)] ∧
    (reset_ids rtC9).idman.cls_group ≠ rtC9.idman.cls_group ∧
    (reset_ids rtC9).idman.reid_max_radius_px = rtC9.idman.reid_max_radius_px ∧
    (reset_ids rtC9).idman.reid_max_frames = rtC9.idman.reid_max_frames ∧
    (reset_ids rtC9).classes = rtC9.classes ∧
    (reset_ids rtC9).obj_heights_m = rtC9.obj_heights_m ∧
    (reset_ids rtC9).cam_pitch_deg = rtC9.cam_pitch_deg ∧
    (reset_ids rtC9).cam_height_m = rtC9.cam_height_m ∧
    (reset_ids rtC9).hfov_deg = rtC9.hfov_deg ∧
    (reset_ids rtC9).vfov_deg = rtC9.vfov_deg ∧
    (reset_ids rtC9).frame_idx = 0 ∧
    (reset_ids rtC9).idman.active = [] ∧
    (reset_ids rtC9).idman.inactive = [] ∧
    (reset_ids rtC9).idman.next_gid = 0 ∧
    (reset_ids rtC9).hist_px = [] ∧
    (reset_ids rtC9).hist_w = [] :=
  ⟨by decide, by decide, by decide, rfl, rfl, rfl, rfl, rfl, rfl, rfl, rfl,
   rfl, rfl, rfl, rfl, rfl, rfl⟩

/-- C8 — counterexample to the claimed configurable-α EMA: the smoother
has no α parameter; its EMA fallback (taken here because a single history
entry gives no average direction, so the direction computation is never
consulted and `dirNone` instantiates it) uses the hard-coded α = 0.5,
so previous (0,0) and raw (10,0) yield (5,0), not the (4,0) the claim
computes from α = 0.4. -/
theorem smooth_px_alpha_not_configurable :
    (smooth_px dirNone 7 1 10 0 [(7, [(0, 0, 0)])]).1 = (5, 0) ∧
    ((5 : ℚ), (0 : ℚ)) ≠ ((4 : ℚ), (0 : ℚ)) := by
  norm_num [smooth_px, smooth_point, dirNone, avg_dir_2d, lastEntry,
    dequeAppend, dist2, alookup, ainsert, GAP_RESET_FRAMES,
    TELEPORT_THRESH_PX, SMOOTH_HISTORY_FRAMES]

/-! ## Claim theorems: smoother -/

/-- C7: for any coordinate space with teleport threshold `thresh`, if the
identity has existing history and the raw point is farther than `thresh`
from the last output (equivalently, squared distance beyond `thresh ^ 2`),
the smoother clears the history, returns exactly the raw point, and
reseeds the history at the raw value stamped with the current frame. -/
theorem smooth_point_teleport_reset
    (dir : DirFn) (gid frame : ℤ) (x y : ℚ) (hist : HistMap) (q : Hist)
    (thresh : ℚ)
    (hq : alookup hist gid = some q) (hne : q ≠ [])
    (ht : thresh ^ 2 < dist2 (x, y) ((lastEntry q).2.1, (lastEntry q).2.2)) :
    smooth_point dir gid frame (x, y) hist thresh
      = ((x, y), ainsert hist gid [(frame, x, y)]) := by
  by_cases hgap : GAP_RESET_FRAMES ≤ frame - (lastEntry q).1
  · simp [smooth_point, hq, hne, hgap, dequeAppend, SMOOTH_HISTORY_FRAMES]
  · simp [smooth_point, hq, hne, hgap, ht, dequeAppend, SMOOTH_HISTORY_FRAMES]

/-- C7 witness: history at (0,0), raw (400,0), pixel threshold 300:
the output is exactly the raw point and the history is reseeded. -/
theorem smooth_point_teleport_reset_witness :
    smooth_point dirNone 0 1 (400, 0) [(0, [(0, 0, 0)])] 300
      = ((400, 0), ainsert [(0, [(0, 0, 0)])] 0 [(1, 400, 0)]) :=
  smooth_point_teleport_reset dirNone 0 1 400 0 [(0, [(0, 0, 0)])]
    [(0, 0, 0)] 300 rfl (by simp) (by norm_num [dist2, lastEntry])

/-- C8 (amended): the smoother's EMA path is the insufficient-history
fallback with the **fixed** α = 1/2 (not a configurable per-space α):
with a single history entry `(f0, px, py)` — so no average direction is
available — and neither gap nor teleport reset firing, the new smoothed
point is `previous + (1/2)·(raw − previous)`. -/
theorem smooth_point_ema_fixed_half
    (dir : DirFn) (gid frame f0 : ℤ) (x y px py : ℚ) (hist : HistMap)
    (thresh : ℚ)
    (hq : alookup hist gid = some [(f0, px, py)])
    (hgap : frame - f0 < GAP_RESET_FRAMES)
    (ht : dist2 (x, y) (px, py) ≤ thresh ^ 2) :
    (smooth_point dir gid frame (x, y) hist thresh).1
      = (px + (1/2) * (x - px), py + (1/2) * (y - py)) := by
  simp [smooth_point, hq, not_le.mpr hgap, not_lt.mpr ht, lastEntry,
    avg_dir_2d]

/-- C8 witness: previous smoothed (0,0), raw (10,0): the EMA fallback
yields (0 + (1/2)·10, 0) = (5,0). -/
theorem smooth_point_ema_fixed_half_witness :
    (smooth_point dirNone 7 1 (10, 0) [(7, [(0, 0, 0)])] 300).1
      = (0 + (1/2) * (10 - 0), 0 + (1/2) * (0 - 0)) :=
  smooth_point_ema_fixed_half dirNone 7 1 0 10 0 0 0 [(7, [(0, 0, 0)])] 300
    rfl (by norm_num [GAP_RESET_FRAMES]) (by norm_num [dist2])

/-- C10: world-space smoothing touches only `(Xw, Yw)`: when either
coordinate is absent both are returned unchanged and the history map is
untouched, and when both are present the result is exactly the generic
2D smoother applied to `(Xw, Yw)` — no Z coordinate is consumed,
produced, or stored (the world history holds `(frame, x, y)` entries
only). -/
theorem smooth_world_only_xy (dir : DirFn) (gid frame : ℤ) :
    (∀ (Xw Yw : Option ℚ) (hist : HistMap), Xw = none ∨ Yw = none →
        smooth_world dir gid frame Xw Yw hist = ((Xw, Yw), hist)) ∧
    (∀ (x y : ℚ) (hist : HistMap),
        smooth_world dir gid frame (some x) (some y) hist =
          ((some (smooth_point dir gid frame (x, y) hist TELEPORT_THRESH_M).1.1,
            some (smooth_point dir gid frame (x, y) hist TELEPORT_THRESH_M).1.2),
           (smooth_point dir gid frame (x, y) hist TELEPORT_THRESH_M).2)) := by
  constructor
  · rintro Xw Yw hist (rfl | rfl)
    · cases Yw <;> rfl
    · cases Xw <;> rfl
  · intro x y hist
    rfl

/-- C10 witness: an absent X world coordinate is propagated unchanged
with untouched state. -/
theorem smooth_world_only_xy_witness :
    smooth_world dirNone 0 0 none (some 1) [] = ((none, some 1), []) :=
  (smooth_world_only_xy dirNone 0 0).1 none (some 1) [] (Or.inl rfl)

/-! ## Claim theorems: continuity matching and 3D estimation -/

/-- C4: a detection of class `B = det.cls_idx` and a track last seen as
class `A = item.cls` with `A ≠ B`, both member classes of the same
materialized continuity group (the class-group map built by
`IdentityManager.__init__`, which only materializes groups with ≥ 2 known
members), are continuity-compatible, and when the track is the candidate
in the pool, within `reid_max_radius_px` of the detection and with age
within `[0, reid_max_frames]`, `_match_pool` matches the detection to it. -/
theorem cross_class_match_within_group
    (st : IMState) (det : Det) (item : TrackRec) (gid g frame : ℤ)
    (groups : List (List String))
    (_hst : st.cls_group = buildClsGroup st.classes groups)
    (hab : item.cls ≠ det.cls_idx)
    (ha : alookup st.cls_group item.cls = some g)
    (hb : alookup st.cls_group det.cls_idx = some g)
    (hage0 : 0 ≤ frame - item.last_frame)
    (hage1 : frame - item.last_frame ≤ st.reid_max_frames)
    (hd : dist2 det.center item.center ≤ (st.reid_max_radius_px : ℚ) ^ 2) :
    same_continuity_class st item.cls det.cls_idx = true ∧
    (matchPool st det [(gid, item)] frame).1 = some gid := by
  have hsc : same_continuity_class st item.cls det.cls_idx = true := by
    unfold same_continuity_class
    rw [if_neg hab, ha, hb]
    simp
  have hage : ¬ (frame - item.last_frame < 0 ∨
      st.reid_max_frames < frame - item.last_frame) := by omega
  have hage2 : ¬ (frame < item.last_frame ∨
      st.reid_max_frames < frame - item.last_frame) := by omega
  refine ⟨hsc, ?_⟩
  have henum : ([(gid, item)] : List (ℤ × TrackRec)).enum
      = [(0, (gid, item))] := rfl
  simp [matchPool, henum, poolGo, poolStep, hage, hage2, hsc, betterThan, hd]

/-- C4 witness: class-0 track at (0,0) seen at frame 2, class-1 detection
at (3,0) at frame 7, classes grouped together: the detection is matched. -/
theorem cross_class_match_within_group_witness :
    same_continuity_class wSt4 0 1 = true ∧
    (matchPool wSt4 ⟨1, (0, 0, 4, 4), (3, 0)⟩
      [(5, ⟨0, (0, 0, 4, 4), (0, 0), 2⟩)] 7).1 = some 5 :=
  cross_class_match_within_group wSt4 ⟨1, (0, 0, 4, 4), (3, 0)⟩
    ⟨0, (0, 0, 4, 4), (0, 0), 2⟩ 5 0 7 [["a", "b"]]
    (by decide) (by decide) (by decide) (by decide) (by decide) (by decide)
    (by norm_num [dist2, wSt4, initIM])

/-- C6: whenever the label has a configured true height `t`, the 3D
estimate exists and its camera-space depth is
`Zc = fy · t / max(1, y2 − y1)`; the floored denominator is at least 1
(so the computation is total even for degenerate boxes); the spec's
instances `fy = 700`, `t = 0.2 m` give depth 1.4 m at 100 px and 0.7 m at
200 px; and depth is inversely proportional to any pixel height ≥ 1
(`depth · h = fy · t`). -/
theorem estimate_depth_similar_triangles
    (x1 y1 x2 y2 : ℤ) (label : String) (fx fy cx cy : ℚ) (R : Mat3)
    (camPos : Vec3) (heights : List (String × ℚ)) (t : ℚ) (hpx : ℤ)
    (hh : alookup heights label = some t) (h1 : 1 ≤ hpx) :
    (∃ e, estimate_3d_for_bbox (x1, y1, x2, y2) label fx fy cx cy R camPos
        heights = some e ∧
        e.Zc = fy * t / ((max 1 (y2 - y1) : ℤ) : ℚ)) ∧
    (1 : ℤ) ≤ max 1 (y2 - y1) ∧
    depth_from_height_px 100 (1/5) 700 = 7/5 ∧
    depth_from_height_px 200 (1/5) 700 = 7/10 ∧
    depth_from_height_px hpx t fy * (hpx : ℚ) = fy * t := by
  have hmax : max 1 (max 1 (y2 - y1)) = max 1 (y2 - y1) := by
    rw [← max_assoc, max_self]
  refine ⟨?_, le_max_left _ _, by norm_num [depth_from_height_px],
    by norm_num [depth_from_height_px], ?_⟩
  · simp only [estimate_3d_for_bbox, hh]
    refine ⟨_, rfl, ?_⟩
    simp only [depth_from_height_px, hmax]
  · have hm : max 1 hpx = hpx := max_eq_right h1
    have hnz : ((hpx : ℤ) : ℚ) ≠ 0 := by
      rw [Int.cast_ne_zero]
      omega
    rw [depth_from_height_px, hm, div_mul_cancel₀ _ hnz]

/-- C6 witness: the "white bottle" box of pixel height 100 with
`fy = 700` and configured height 0.15 m; the spec's 1.4 m / 0.7 m
instances; inverse proportionality at height 100. -/
theorem estimate_depth_similar_triangles_witness :
    (∃ e, estimate_3d_for_bbox (10, 20, 110, 120) "white bottle" 700 700
        480 360 idMat (0, 0, 1/10) DEFAULT_OBJ_HEIGHTS_M = some e ∧
        e.Zc = 700 * (3/20) / ((max 1 ((120:ℤ) - 20) : ℤ) : ℚ)) ∧
    (1 : ℤ) ≤ max 1 ((120:ℤ) - 20) ∧
    depth_from_height_px 100 (1/5) 700 = 7/5 ∧
    depth_from_height_px 200 (1/5) 700 = 7/10 ∧
    depth_from_height_px 100 (3/20) 700 * ((100:ℤ) : ℚ) = 700 * (3/20) :=
  estimate_depth_similar_triangles 10 20 110 120 "white bottle" 700 700 480
    360 idMat (0, 0, 1/10) DEFAULT_OBJ_HEIGHTS_M (3/20) 100 rfl (by decide)

/-! ## Phase shape lemmas: what each `assign` phase can change -/

theorem matchPool_shape (st : IMState) (det : Det)
    (pool : List (ℤ × TrackRec)) (frame : ℤ) :
    ∃ a, (matchPool st det pool frame).2.2 = { st with active := a } := by
  unfold matchPool
  cases poolGo st det frame pool.enum none with
  | none => exact ⟨st.active, rfl⟩
  | some b => exact ⟨_, rfl⟩

theorem phase1Go_shape (frame : ℤ) (l : List (ℕ × Det)) :
    ∀ (u : List ℤ) (m : List (ℕ × ℤ)) (st : IMState),
    ∃ a, (phase1Go frame l (u, m, st)).2.2 = { st with active := a } := by
  induction l with
  | nil => exact fun u m st => ⟨st.active, rfl⟩
  | cons p l ih =>
      intro u m st
      obtain ⟨a1, ha1⟩ := matchPool_shape st p.2 st.active frame
      simp only [phase1Go]
      cases hr : (matchPool st p.2 st.active frame).1 with
      | none =>
          obtain ⟨a2, ha2⟩ := ih u m (matchPool st p.2 st.active frame).2.2
          refine ⟨a2, ?_⟩
          rw [ha2, ha1]
      | some g =>
          dsimp only
          by_cases hu : u.contains g = true
          · rw [if_pos hu]
            obtain ⟨a2, ha2⟩ := ih u m (matchPool st p.2 st.active frame).2.2
            refine ⟨a2, ?_⟩
            rw [ha2, ha1]
          · rw [if_neg hu]
            obtain ⟨a2, ha2⟩ :=
              ih (g :: u) (ainsert m p.1 g) (matchPool st p.2 st.active frame).2.2
            refine ⟨a2, ?_⟩
            rw [ha2, ha1]

theorem phase2Go_shape (frame : ℤ) (l : List (ℕ × Det)) :
    ∀ (u : List ℤ) (m : List (ℕ × ℤ)) (st : IMState),
    ∃ a i, (phase2Go frame l (u, m, st)).2.2
      = { st with active := a, inactive := i } := by
  induction l with
  | nil => exact fun u m st => ⟨st.active, st.inactive, rfl⟩
  | cons p l ih =>
      intro u m st
      simp only [phase2Go]
      by_cases hm : (alookup m p.1).isSome
      · rw [if_pos hm]
        exact ih u m st
      · rw [if_neg hm]
        obtain ⟨a1, ha1⟩ := matchPool_shape st p.2 st.inactive frame
        cases hr : (matchPool st p.2 st.inactive frame).1 with
        | none =>
            obtain ⟨a2, i2, h2⟩ := ih u m
              { (matchPool st p.2 st.inactive frame).2.2 with
                inactive := (matchPool st p.2 st.inactive frame).2.1 }
            refine ⟨a2, i2, ?_⟩
            rw [h2, ha1]
        | some g =>
            dsimp only
            by_cases hu : u.contains g = true
            · rw [if_pos hu]
              obtain ⟨a2, i2, h2⟩ := ih u m
                { (matchPool st p.2 st.inactive frame).2.2 with
                  inactive := (matchPool st p.2 st.inactive frame).2.1 }
              refine ⟨a2, i2, ?_⟩
              rw [h2, ha1]
            · rw [if_neg hu]
              obtain ⟨a2, i2, h2⟩ := ih (g :: u) (ainsert m p.1 g)
                { (matchPool st p.2 st.inactive frame).2.2 with
                  inactive := (matchPool st p.2 st.inactive frame).2.1 }
              refine ⟨a2, i2, ?_⟩
              rw [h2, ha1]

theorem phase2Go_shape_acc (frame : ℤ) (l : List (ℕ × Det))
    (acc : List ℤ × List (ℕ × ℤ) × IMState) :
    ∃ a i, (phase2Go frame l acc).2.2
      = { acc.2.2 with active := a, inactive := i } :=
  phase2Go_shape frame l acc.1 acc.2.1 acc.2.2

theorem intRange_succ_cons (a : ℤ) (n : ℕ) :
    intRange a (n + 1) = a :: intRange (a + 1) n := by
  unfold intRange
  rw [List.range_succ_eq_map, List.map_cons, List.map_map]
  have h1 : ((fun i : ℕ => a + (i : ℤ)) ∘ Nat.succ)
      = fun i : ℕ => (a + 1) + (i : ℤ) := by
    funext i
    simp only [Function.comp_apply]
    push_cast
    ring
  rw [h1]
  norm_num

theorem intRange_append (a : ℤ) (m n : ℕ) :
    intRange a m ++ intRange (a + (m : ℤ)) n = intRange a (m + n) := by
  induction m generalizing a with
  | zero => simp [intRange]
  | succ m ih =>
      rw [intRange_succ_cons, List.cons_append]
      have h1 : a + ((m + 1 : ℕ) : ℤ) = (a + 1) + (m : ℤ) := by
        push_cast
        ring
      rw [h1, ih (a + 1)]
      have h2 : m + 1 + n = (m + n) + 1 := by omega
      rw [h2, intRange_succ_cons]

theorem phase3Go_spec (frame : ℤ) (l : List (ℕ × Det)) :
    ∀ (u : List ℤ) (m : List (ℕ × ℤ)) (a : List ℤ) (st : IMState),
    ∃ (k : ℕ) (aq : List (ℤ × TrackRec)),
      (phase3Go frame l (u, m, a, st)).2.2.1 = a ++ intRange st.next_gid k ∧
      (phase3Go frame l (u, m, a, st)).2.2.2
        = { st with active := aq, next_gid := st.next_gid + (k : ℤ) } := by
  induction l with
  | nil =>
      intro u m a st
      refine ⟨0, st.active, ?_, ?_⟩
      · simp [phase3Go, intRange]
      · simp [phase3Go]
  | cons p l ih =>
      intro u m a st
      simp only [phase3Go]
      by_cases hm : (alookup m p.1).isSome
      · rw [if_pos hm]
        exact ih u m a st
      · rw [if_neg hm]
        obtain ⟨k, aq, hal, hst⟩ := ih (st.next_gid :: u)
          (ainsert m p.1 st.next_gid) (a ++ [st.next_gid])
          { st with next_gid := st.next_gid + 1,
                    active := ainsert st.active st.next_gid
                      ⟨p.2.cls_idx, p.2.bbox, p.2.center, frame⟩ }
        dsimp only at hal hst
        refine ⟨k + 1, aq, ?_, ?_⟩
        · rw [hal, List.append_assoc, List.singleton_append,
            ← intRange_succ_cons]
        · rw [hst]
          have hc : st.next_gid + 1 + (k : ℤ)
              = st.next_gid + ((k + 1 : ℕ) : ℤ) := by
            push_cast
            ring
          rw [hc]

/-! ## Claim theorems: gid allocation (C1) -/

theorem assign_alloc (st : IMState) (frame : ℤ) (dets : List Det) :
    ∃ k : ℕ, (assign st frame dets).alloc = intRange st.next_gid k ∧
      (assign st frame dets).st.next_gid = st.next_gid + (k : ℤ) := by
  obtain ⟨a1, h1⟩ := phase1Go_shape frame dets.enum [] [] st
  obtain ⟨a2, i2, h2⟩ := phase2Go_shape_acc frame dets.enum
    (phase1Go frame dets.enum ([], [], st))
  obtain ⟨k, aq, hal, hst⟩ := phase3Go_spec frame dets.enum
    (phase2Go frame dets.enum (phase1Go frame dets.enum ([], [], st))).1
    (phase2Go frame dets.enum (phase1Go frame dets.enum ([], [], st))).2.1 []
    (phase2Go frame dets.enum (phase1Go frame dets.enum ([], [], st))).2.2
  have hng2 : (phase2Go frame dets.enum
      (phase1Go frame dets.enum ([], [], st))).2.2.next_gid = st.next_gid := by
    rw [h2, h1]
  refine ⟨k, ?_, ?_⟩
  · show (phase3Go frame dets.enum _).2.2.1 = _
    rw [hal, hng2, List.nil_append]
  · show (demotePrune (phase3Go frame dets.enum _).2.2.2 frame _).next_gid = _
    unfold demotePrune
    dsimp only
    rw [hst]
    dsimp only
    rw [hng2]

theorem runSession_alloc (calls : List (ℤ × List Det)) :
    ∀ st : IMState, ∃ k : ℕ,
      ((runSession st calls).1.map AssignOut.alloc).flatten
        = intRange st.next_gid k ∧
      (runSession st calls).2.next_gid = st.next_gid + (k : ℤ) := by
  induction calls with
  | nil =>
      intro st
      exact ⟨0, by simp [runSession, intRange], by simp [runSession]⟩
  | cons c cs ih =>
      intro st
      obtain ⟨k1, ha1, hn1⟩ := assign_alloc st c.1 c.2
      obtain ⟨k2, ha2, hn2⟩ := ih (assign st c.1 c.2).st
      refine ⟨k1 + k2, ?_, ?_⟩
      · simp only [runSession, List.map_cons, List.flatten_cons]
        rw [ha1, ha2, hn1, intRange_append]
      · simp only [runSession]
        rw [hn2, hn1]
        push_cast
        ring

/-- C1: over any session (any sequence of `assign` calls from a freshly
constructed identity manager), the gids allocated by `_new_gid`, in
allocation order across the whole session, are exactly
`[0, 1, ..., N-1]` where `N` is the final `next_gid`: they are
non-negative, strictly increasing from 0, and no gid is ever allocated
twice. -/
theorem session_gid_allocation (classes : List String)
    (groups : List (List String)) (radius frames : ℤ)
    (calls : List (ℤ × List Det)) :
    ((runSession (initIM classes groups radius frames) calls).1.map
        AssignOut.alloc).flatten
      = intRange 0
          ((runSession (initIM classes groups radius frames)
            calls).2.next_gid).toNat := by
  obtain ⟨k, ha, hn⟩ := runSession_alloc calls
    (initIM classes groups radius frames)
  have h0 : (initIM classes groups radius frames).next_gid = 0 := rfl
  rw [ha, hn, h0]
  congr 1
  omega


/-! ## Claim theorems: totality and freshness of `assign` (C3) -/

theorem phase3Go_mono (frame : ℤ) :
    ∀ (l : List (ℕ × Det)) (u : List ℤ) (m : List (ℕ × ℤ)) (a : List ℤ)
      (st : IMState) (j : ℕ),
    (alookup m j).isSome →
    (alookup (phase3Go frame l (u, m, a, st)).2.1 j).isSome := by
  intro l
  induction l with
  | nil => exact fun u m a st j h => h
  | cons p l ih =>
      intro u m a st j h
      simp only [phase3Go]
      by_cases hm : (alookup m p.1).isSome
      · rw [if_pos hm]
        exact ih u m a st j h
      · rw [if_neg hm]
        exact ih _ _ _ _ j (alookup_ainsert_isSome m p.1 j st.next_gid h)

theorem phase3Go_preserve (frame : ℤ) :
    ∀ (l : List (ℕ × Det)) (u : List ℤ) (m : List (ℕ × ℤ)) (a : List ℤ)
      (st : IMState) (j : ℕ) (v : ℤ),
    alookup m j = some v →
    alookup (phase3Go frame l (u, m, a, st)).2.1 j = some v := by
  intro l
  induction l with
  | nil => exact fun u m a st j v h => h
  | cons p l ih =>
      intro u m a st j v h
      simp only [phase3Go]
      by_cases hm : (alookup m p.1).isSome
      · rw [if_pos hm]
        exact ih u m a st j v h
      · rw [if_neg hm]
        refine ih _ _ _ _ j v ?_
        rw [alookup_ainsert]
        have hj : j ≠ p.1 := by
          intro hc
          rw [← hc, h] at hm
          simp at hm
        rw [if_neg hj]
        exact h

theorem phase3Go_total (frame : ℤ) :
    ∀ (l : List (ℕ × Det)) (u : List ℤ) (m : List (ℕ × ℤ)) (a : List ℤ)
      (st : IMState), ∀ p ∈ l,
    (alookup (phase3Go frame l (u, m, a, st)).2.1 p.1).isSome := by
  intro l
  induction l with
  | nil => intro u m a st p hp; cases hp
  | cons q l ih =>
      intro u m a st p hp
      simp only [phase3Go]
      rcases List.mem_cons.mp hp with hpq | hpl
      · subst hpq
        by_cases hm : (alookup m p.1).isSome
        · rw [if_pos hm]
          exact phase3Go_mono frame l u m a st p.1 hm
        · rw [if_neg hm]
          refine phase3Go_mono frame l _ _ _ _ p.1 ?_
          rw [alookup_ainsert, if_pos rfl]
          rfl
      · by_cases hm : (alookup m q.1).isSome
        · rw [if_pos hm]
          exact ih u m a st p hpl
        · rw [if_neg hm]
          exact ih _ _ _ _ p hpl

theorem poolStep_ineligible (st : IMState) (det : Det) (frame : ℤ)
    (best : Option BestCand) (q : ℕ × ℤ × TrackRec)
    (h : ¬ eligible st frame det q.2.2) :
    poolStep st det frame best q = best := by
  unfold poolStep
  by_cases h1 : frame - q.2.2.last_frame < 0 ∨
      st.reid_max_frames < frame - q.2.2.last_frame
  · rw [if_pos h1]
  · rw [if_neg h1]
    by_cases h2 : same_continuity_class st q.2.2.cls det.cls_idx = false
    · rw [if_pos h2]
    · rw [if_neg h2]
      have h2t : same_continuity_class st q.2.2.cls det.cls_idx = true := by
        cases hb : same_continuity_class st q.2.2.cls det.cls_idx
        · exact absurd hb h2
        · rfl
      have h3 : ¬ (dist2 det.center q.2.2.center
          ≤ (st.reid_max_radius_px : ℚ) ^ 2 ∧
          betterThan (dist2 det.center q.2.2.center) best = true) := by
        rintro ⟨hd, _⟩
        exact h ⟨by omega, by omega, h2t, hd⟩
      rw [if_neg h3]

theorem poolGo_ineligible (st : IMState) (det : Det) (frame : ℤ) :
    ∀ (l : List (ℕ × ℤ × TrackRec)) (best : Option BestCand),
    (∀ q ∈ l, ¬ eligible st frame det q.2.2) →
    poolGo st det frame l best = best := by
  intro l
  induction l with
  | nil => intro best h; rfl
  | cons q l ih =>
      intro best h
      simp only [poolGo]
      rw [poolStep_ineligible st det frame best q (h q (List.mem_cons_self q l))]
      exact ih best (fun r hr => h r (List.mem_cons_of_mem q hr))

theorem matchPool_ineligible (st : IMState) (det : Det)
    (pool : List (ℤ × TrackRec)) (frame : ℤ)
    (h : ∀ p ∈ pool, ¬ eligible st frame det p.2) :
    matchPool st det pool frame = (none, pool, st) := by
  unfold matchPool
  have henum : ∀ q ∈ pool.enum, ¬ eligible st frame det q.2.2 := by
    intro q hq
    have hmem : q.2 ∈ pool := by
      have hs := List.enum_map_snd pool
      exact hs ▸ List.mem_map_of_mem Prod.snd hq
    exact h q.2 hmem
  rw [poolGo_ineligible st det frame pool.enum none henum]

/-! ## Claim theorems: purge and no revival (C5) -/

theorem keyAbsent_ainsert {α : Type} (g k : ℤ) (v : α) (m : List (ℤ × α))
    (hm : keyAbsent g m) (hk : k ≠ g) : keyAbsent g (ainsert m k v) := by
  induction m with
  | nil =>
      intro p hp
      rcases List.mem_singleton.mp hp with rfl
      exact hk
  | cons q rest ih =>
      intro p hp
      unfold ainsert at hp
      by_cases hq : q.1 = k
      · rw [if_pos hq] at hp
        rcases List.mem_cons.mp hp with rfl | hrest
        · exact hk
        · exact hm p (List.mem_cons_of_mem q hrest)
      · rw [if_neg hq] at hp
        rcases List.mem_cons.mp hp with rfl | hrest
        · exact hm p (List.mem_cons_self p rest)
        · exact ih (fun r hr => hm r (List.mem_cons_of_mem q hr)) p hrest

theorem valAbsent_ainsert (g : ℤ) (k : ℕ) (v : ℤ) (m : List (ℕ × ℤ))
    (hm : valAbsent g m) (hv : v ≠ g) : valAbsent g (ainsert m k v) := by
  induction m with
  | nil =>
      intro p hp
      rcases List.mem_singleton.mp hp with rfl
      exact hv
  | cons q rest ih =>
      intro p hp
      unfold ainsert at hp
      by_cases hq : q.1 = k
      · rw [if_pos hq] at hp
        rcases List.mem_cons.mp hp with rfl | hrest
        · exact hv
        · exact hm p (List.mem_cons_of_mem q hrest)
      · rw [if_neg hq] at hp
        rcases List.mem_cons.mp hp with rfl | hrest
        · exact hm p (List.mem_cons_self p rest)
        · exact ih (fun r hr => hm r (List.mem_cons_of_mem q hr)) p hrest

theorem keyAbsent_eraseIdx {α : Type} (g : ℤ) (m : List (ℤ × α)) (i : ℕ)
    (hm : keyAbsent g m) : keyAbsent g (m.eraseIdx i) :=
  fun p hp => hm p ((List.eraseIdx_sublist m i).mem hp)

theorem keyAbsent_filter {α : Type} (g : ℤ) (m : List (ℤ × α))
    (f : ℤ × α → Bool) (hm : keyAbsent g m) : keyAbsent g (m.filter f) :=
  fun p hp => hm p (List.mem_of_mem_filter hp)

theorem keyAbsent_append {α : Type} (g : ℤ) (m1 m2 : List (ℤ × α))
    (h1 : keyAbsent g m1) (h2 : keyAbsent g m2) : keyAbsent g (m1 ++ m2) := by
  intro p hp
  rcases List.mem_append.mp hp with h | h
  · exact h1 p h
  · exact h2 p h

theorem poolStep_cases (st : IMState) (det : Det) (frame : ℤ)
    (best : Option BestCand) (q : ℕ × ℤ × TrackRec) :
    poolStep st det frame best q = best ∨
    poolStep st det frame best q
      = some ⟨q.2.1, dist2 det.center q.2.2.center, q.1, q.2.2⟩ := by
  unfold poolStep
  by_cases h1 : frame - q.2.2.last_frame < 0 ∨
      st.reid_max_frames < frame - q.2.2.last_frame
  · rw [if_pos h1]
    exact Or.inl rfl
  · rw [if_neg h1]
    by_cases h2 : same_continuity_class st q.2.2.cls det.cls_idx = false
    · rw [if_pos h2]
      exact Or.inl rfl
    · rw [if_neg h2]
      by_cases h3 : dist2 det.center q.2.2.center
          ≤ (st.reid_max_radius_px : ℚ) ^ 2 ∧
          betterThan (dist2 det.center q.2.2.center) best = true
      · rw [if_pos h3]
        exact Or.inr rfl
      · rw [if_neg h3]
        exact Or.inl rfl

theorem poolGo_gid (st : IMState) (det : Det) (frame : ℤ) (g : ℤ) :
    ∀ (l : List (ℕ × ℤ × TrackRec)) (best : Option BestCand),
    (∀ q ∈ l, q.2.1 ≠ g) → (∀ b, best = some b → b.gid ≠ g) →
    ∀ b, poolGo st det frame l best = some b → b.gid ≠ g := by
  intro l
  induction l with
  | nil => exact fun best hl hb b h => hb b h
  | cons q l ih =>
      intro best hl hb b h
      simp only [poolGo] at h
      refine ih (poolStep st det frame best q)
        (fun r hr => hl r (List.mem_cons_of_mem q hr)) ?_ b h
      intro b2 hb2
      rcases poolStep_cases st det frame best q with hc | hc
      · exact hb b2 (hc ▸ hb2)
      · rw [hc] at hb2
        injection hb2 with hb3
        rw [← hb3]
        exact hl q (List.mem_cons_self q l)

theorem matchPool_absent (st : IMState) (det : Det)
    (pool : List (ℤ × TrackRec)) (frame g : ℤ)
    (hpool : keyAbsent g pool) (hact : keyAbsent g st.active) :
    (∀ gid, (matchPool st det pool frame).1 = some gid → gid ≠ g) ∧
    keyAbsent g (matchPool st det pool frame).2.1 ∧
    keyAbsent g (matchPool st det pool frame).2.2.active := by
  have henum : ∀ q ∈ pool.enum, q.2.1 ≠ g := by
    intro q hq
    have hmem : q.2 ∈ pool := by
      have hs := List.enum_map_snd pool
      exact hs ▸ List.mem_map_of_mem Prod.snd hq
    exact hpool q.2 hmem
  unfold matchPool
  cases hb : poolGo st det frame pool.enum none with
  | none =>
      refine ⟨?_, hpool, hact⟩
      intro gid hg
      cases hg
  | some b =>
      have hbg : b.gid ≠ g :=
        poolGo_gid st det frame g pool.enum none henum
          (fun b2 hb2 => by cases hb2) b hb
      refine ⟨?_, ?_, ?_⟩
      · intro gid hg
        injection hg with hg2
        rw [← hg2]
        exact hbg
      · exact keyAbsent_eraseIdx g pool b.pos hpool
      · exact keyAbsent_ainsert g b.gid _ st.active hact hbg

theorem matchPool_next_gid (st : IMState) (det : Det)
    (pool : List (ℤ × TrackRec)) (frame : ℤ) :
    (matchPool st det pool frame).2.2.next_gid = st.next_gid := by
  obtain ⟨a, h⟩ := matchPool_shape st det pool frame
  rw [h]

theorem matchPool_inactive (st : IMState) (det : Det)
    (pool : List (ℤ × TrackRec)) (frame : ℤ) :
    (matchPool st det pool frame).2.2.inactive = st.inactive := by
  obtain ⟨a, h⟩ := matchPool_shape st det pool frame
  rw [h]

theorem phase1Go_gidFree (frame g : ℤ) :
    ∀ (l : List (ℕ × Det)) (u : List ℤ) (m : List (ℕ × ℤ)) (st : IMState),
    gidFree g st → valAbsent g m →
    gidFree g (phase1Go frame l (u, m, st)).2.2 ∧
    valAbsent g (phase1Go frame l (u, m, st)).2.1 := by
  intro l
  induction l with
  | nil => exact fun u m st hf hm => ⟨hf, hm⟩
  | cons p l ih =>
      intro u m st hf hm
      have hmp := matchPool_absent st p.2 st.active frame g hf.2.1 hf.2.1
      have hf1 : gidFree g (matchPool st p.2 st.active frame).2.2 := by
        refine ⟨?_, hmp.2.2, ?_⟩
        · rw [matchPool_next_gid]
          exact hf.1
        · rw [matchPool_inactive]
          exact hf.2.2
      simp only [phase1Go]
      cases hr : (matchPool st p.2 st.active frame).1 with
      | none => exact ih u m _ hf1 hm
      | some gg =>
          dsimp only
          by_cases hu : u.contains gg = true
          · rw [if_pos hu]
            exact ih u m _ hf1 hm
          · rw [if_neg hu]
            exact ih _ _ _ hf1 (valAbsent_ainsert g p.1 gg m hm (hmp.1 gg hr))

theorem phase2Go_gidFree (frame g : ℤ) :
    ∀ (l : List (ℕ × Det)) (u : List ℤ) (m : List (ℕ × ℤ)) (st : IMState),
    gidFree g st → valAbsent g m →
    gidFree g (phase2Go frame l (u, m, st)).2.2 ∧
    valAbsent g (phase2Go frame l (u, m, st)).2.1 := by
  intro l
  induction l with
  | nil => exact fun u m st hf hm => ⟨hf, hm⟩
  | cons p l ih =>
      intro u m st hf hm
      simp only [phase2Go]
      by_cases hmm : (alookup m p.1).isSome
      · rw [if_pos hmm]
        exact ih u m st hf hm
      · rw [if_neg hmm]
        have hmp := matchPool_absent st p.2 st.inactive frame g hf.2.2 hf.2.1
        have hf1 : gidFree g
            { (matchPool st p.2 st.inactive frame).2.2 with
              inactive := (matchPool st p.2 st.inactive frame).2.1 } := by
          refine ⟨?_, ?_, ?_⟩
          · show g < (matchPool st p.2 st.inactive frame).2.2.next_gid
            rw [matchPool_next_gid]
            exact hf.1
          · show keyAbsent g (matchPool st p.2 st.inactive frame).2.2.active
            exact hmp.2.2
          · exact hmp.2.1
        cases hr : (matchPool st p.2 st.inactive frame).1 with
        | none => exact ih u m _ hf1 hm
        | some gg =>
            dsimp only
            by_cases hu : u.contains gg = true
            · rw [if_pos hu]
              exact ih u m _ hf1 hm
            · rw [if_neg hu]
              exact ih _ _ _ hf1 (valAbsent_ainsert g p.1 gg m hm (hmp.1 gg hr))

theorem phase3Go_gidFree (frame g : ℤ) :
    ∀ (l : List (ℕ × Det)) (u : List ℤ) (m : List (ℕ × ℤ)) (a : List ℤ)
      (st : IMState),
    gidFree g st → valAbsent g m →
    gidFree g (phase3Go frame l (u, m, a, st)).2.2.2 ∧
    valAbsent g (phase3Go frame l (u, m, a, st)).2.1 := by
  intro l
  induction l with
  | nil => exact fun u m a st hf hm => ⟨hf, hm⟩
  | cons p l ih =>
      intro u m a st hf hm
      simp only [phase3Go]
      by_cases hmm : (alookup m p.1).isSome
      · rw [if_pos hmm]
        exact ih u m a st hf hm
      · rw [if_neg hmm]
        have hgg : st.next_gid ≠ g := by
          have hlt := hf.1
          omega
        have hf1 : gidFree g
            { st with next_gid := st.next_gid + 1,
                      active := ainsert st.active st.next_gid
                        ⟨p.2.cls_idx, p.2.bbox, p.2.center, frame⟩ } := by
          refine ⟨?_, ?_, ?_⟩
          · show g < st.next_gid + 1
            have hlt := hf.1
            omega
          · show keyAbsent g (ainsert st.active st.next_gid
              ⟨p.2.cls_idx, p.2.bbox, p.2.center, frame⟩)
            exact keyAbsent_ainsert g st.next_gid _ st.active hf.2.1 hgg
          · exact hf.2.2
        exact ih _ _ _ _ hf1 (valAbsent_ainsert g p.1 st.next_gid m hm hgg)

theorem demotePrune_gidFree (g : ℤ) (st : IMState) (frame : ℤ)
    (m : List (ℕ × ℤ)) (hf : gidFree g st) :
    gidFree g (demotePrune st frame m) := by
  unfold demotePrune
  refine ⟨hf.1, ?_, ?_⟩
  · exact keyAbsent_filter g st.active _ hf.2.1
  · exact keyAbsent_filter g _ _
      (keyAbsent_append g st.inactive _ hf.2.2
        (keyAbsent_filter g st.active _ hf.2.1))

theorem assign_gidFree (st : IMState) (frame : ℤ) (dets : List Det) (g : ℤ)
    (hf : gidFree g st) :
    gidFree g (assign st frame dets).st ∧
    valAbsent g (assign st frame dets).mapping := by
  have h1 := phase1Go_gidFree frame g dets.enum [] [] st hf
    (fun p hp => absurd hp (List.not_mem_nil p))
  have h2 := phase2Go_gidFree frame g dets.enum
    (phase1Go frame dets.enum ([], [], st)).1
    (phase1Go frame dets.enum ([], [], st)).2.1
    (phase1Go frame dets.enum ([], [], st)).2.2
    h1.1 h1.2
  have h3 := phase3Go_gidFree frame g dets.enum
    (phase2Go frame dets.enum (phase1Go frame dets.enum ([], [], st))).1
    (phase2Go frame dets.enum (phase1Go frame dets.enum ([], [], st))).2.1 []
    (phase2Go frame dets.enum (phase1Go frame dets.enum ([], [], st))).2.2
    h2.1 h2.2
  exact ⟨demotePrune_gidFree g _ frame _ h3.1, h3.2⟩

theorem runSession_gidFree (g : ℤ) (calls : List (ℤ × List Det)) :
    ∀ st : IMState, gidFree g st →
    (∀ out ∈ (runSession st calls).1, valAbsent g out.mapping) ∧
    gidFree g (runSession st calls).2 := by
  induction calls with
  | nil =>
      intro st h
      exact ⟨fun out ho => absurd ho (List.not_mem_nil out), h⟩
  | cons c cs ih =>
      intro st h
      have ha := assign_gidFree st c.1 c.2 g h
      have hr := ih (assign st c.1 c.2).st ha.1
      refine ⟨?_, hr.2⟩
      intro out ho
      rcases List.mem_cons.mp ho with rfl | ho2
      · exact ha.2
      · exact hr.1 out ho2

theorem demotePrune_prunes (st : IMState) (frame : ℤ) (m : List (ℕ × ℤ)) :
    ∀ p ∈ (demotePrune st frame m).inactive,
      frame - p.2.last_frame ≤ st.reid_max_frames := by
  intro p hp
  unfold demotePrune at hp
  dsimp only at hp
  have h := List.mem_filter.mp hp
  exact of_decide_eq_true h.2

theorem assign_prunes (st : IMState) (frame : ℤ) (dets : List Det) :
    ∀ p ∈ (assign st frame dets).st.inactive,
      frame - p.2.last_frame ≤ st.reid_max_frames := by
  obtain ⟨a1, h1⟩ := phase1Go_shape frame dets.enum [] [] st
  obtain ⟨a2, i2, h2⟩ := phase2Go_shape_acc frame dets.enum
    (phase1Go frame dets.enum ([], [], st))
  obtain ⟨k, aq, hal, hst⟩ := phase3Go_spec frame dets.enum
    (phase2Go frame dets.enum (phase1Go frame dets.enum ([], [], st))).1
    (phase2Go frame dets.enum (phase1Go frame dets.enum ([], [], st))).2.1 []
    (phase2Go frame dets.enum (phase1Go frame dets.enum ([], [], st))).2.2
  intro p hp
  have hthis := demotePrune_prunes _ frame _ p hp
  have hfr : (phase3Go frame dets.enum
      ((phase2Go frame dets.enum (phase1Go frame dets.enum ([], [], st))).1,
       (phase2Go frame dets.enum (phase1Go frame dets.enum ([], [], st))).2.1,
       [],
       (phase2Go frame dets.enum
         (phase1Go frame dets.enum ([], [], st))).2.2)).2.2.2.reid_max_frames
      = st.reid_max_frames := by
    rw [hst]
    dsimp only
    rw [h2]
    dsimp only
    rw [h1]
  rwa [hfr] at hthis

/-- C5: (a) every `assign` call ends by pruning the inactive pool: every
surviving inactive record has age (current frame minus its `last_frame`)
at most `reid_max_frames`; (b) a purged gid — one already allocated but
present in neither pool (`gidFree`) — is never assigned by any later call
of the session (it appears in no later mapping) and never re-enters
either pool. -/
theorem inactive_purged_never_revived (st : IMState) (frame : ℤ)
    (dets : List Det) (g : ℤ) (calls : List (ℤ × List Det)) :
    (∀ p ∈ (assign st frame dets).st.inactive,
        frame - p.2.last_frame ≤ st.reid_max_frames) ∧
    (gidFree g st →
        (∀ out ∈ (runSession st calls).1, valAbsent g out.mapping) ∧
        gidFree g (runSession st calls).2) :=
  ⟨assign_prunes st frame dets, runSession_gidFree g calls st⟩

/-- C5 witness: in a session where gid 0 was allocated and then purged, a
later call that spawns a detection at the purged track's exact location
never assigns gid 0 again, and gid 0 stays out of both pools. -/
theorem inactive_purged_never_revived_witness :
    valAbsent 0 (assign stW5 20 [⟨0, (0, 0, 4, 4), (0, 0)⟩]).mapping ∧
    gidFree 0 (runSession stW5 [(20, [⟨0, (0, 0, 4, 4), (0, 0)⟩])]).2 := by
  have h := (inactive_purged_never_revived stW5 20 [] 0
    [(20, [⟨0, (0, 0, 4, 4), (0, 0)⟩])]).2
    ⟨by norm_num [stW5], fun p hp => absurd hp (List.not_mem_nil p),
     fun p hp => absurd hp (List.not_mem_nil p)⟩
  exact ⟨h.1 (assign stW5 20 [⟨0, (0, 0, 4, 4), (0, 0)⟩])
    (List.mem_cons_self _ _), h.2⟩


/-! ## Claim theorems: per-detection freshness of `assign` (C3) -/

theorem eligible_active_update (st0 : IMState) (A : List (ℤ × TrackRec))
    (f : ℤ) (det : Det) (it : TrackRec) :
    eligible { st0 with active := A } f det it ↔ eligible st0 f det it :=
  Iff.rfl

theorem eligible_pools_update (st0 : IMState) (A I : List (ℤ × TrackRec))
    (f : ℤ) (det : Det) (it : TrackRec) :
    eligible { st0 with active := A, inactive := I } f det it
      ↔ eligible st0 f det it := Iff.rfl

theorem ainsert_mem {κ α : Type} [DecidableEq κ] (m : List (κ × α))
    (k : κ) (v : α) : ∀ p ∈ ainsert m k v, p ∈ m ∨ p = (k, v) := by
  induction m with
  | nil =>
      intro p hp
      right
      exact List.mem_singleton.mp hp
  | cons q rest ih =>
      intro p hp
      unfold ainsert at hp
      by_cases hq : q.1 = k
      · rw [if_pos hq] at hp
        rcases List.mem_cons.mp hp with rfl | h
        · right; rfl
        · left; exact List.mem_cons_of_mem q h
      · rw [if_neg hq] at hp
        rcases List.mem_cons.mp hp with rfl | h
        · left; exact List.mem_cons_self p rest
        · rcases ih p h with h2 | h2
          · left; exact List.mem_cons_of_mem q h2
          · right; exact h2

theorem poolGo_mem (st : IMState) (det : Det) (frame : ℤ)
    (pool : List (ℤ × TrackRec)) :
    ∀ (l : List (ℕ × ℤ × TrackRec)) (acc : Option BestCand),
    (∀ b, acc = some b → (b.gid, b.item) ∈ pool) →
    (∀ q ∈ l, (q.2.1, q.2.2) ∈ pool) →
    ∀ b, poolGo st det frame l acc = some b → (b.gid, b.item) ∈ pool := by
  intro l
  induction l with
  | nil => exact fun acc hacc hl b h => hacc b h
  | cons q l ih =>
      intro acc hacc hl b h
      simp only [poolGo] at h
      refine ih (poolStep st det frame acc q) ?_
        (fun r hr => hl r (List.mem_cons_of_mem q hr)) b h
      intro b2 hb2
      rcases poolStep_cases st det frame acc q with hc | hc
      · exact hacc b2 (hc ▸ hb2)
      · rw [hc] at hb2
        injection hb2 with hb3
        rw [← hb3]
        exact hl q (List.mem_cons_self q l)

theorem matchPool_cases (st : IMState) (det : Det)
    (pool : List (ℤ × TrackRec)) (frame : ℤ) :
    matchPool st det pool frame = (none, pool, st) ∨
    ∃ gid item pos, (gid, item) ∈ pool ∧
      matchPool st det pool frame
        = (some gid, pool.eraseIdx pos,
           { st with active := ainsert st.active gid (mkHybrid item det frame) }) := by
  unfold matchPool
  cases hb : poolGo st det frame pool.enum none with
  | none => exact Or.inl rfl
  | some b =>
      refine Or.inr ⟨b.gid, b.item, b.pos, ?_, rfl⟩
      refine poolGo_mem st det frame pool pool.enum none
        (fun b2 hb2 => by cases hb2) ?_ b hb
      intro q hq
      have hmem : q.2 ∈ pool := by
        have hs := List.enum_map_snd pool
        exact hs ▸ List.mem_map_of_mem Prod.snd hq
      exact hmem

theorem activeReach_mono (st0 : IMState) (frame : ℤ)
    (seen seen2 : List Det) (A : List (ℤ × TrackRec))
    (hsub : ∀ d ∈ seen, d ∈ seen2)
    (h : activeReach st0 seen frame A) : activeReach st0 seen2 frame A := by
  intro p hp
  rcases h p hp with h1 | ⟨q, hq, d, hd, he⟩
  · exact Or.inl h1
  · exact Or.inr ⟨q, hq, d, hsub d hd, he⟩

theorem phase1Go_append (frame : ℤ) (l1 l2 : List (ℕ × Det)) :
    ∀ acc, phase1Go frame (l1 ++ l2) acc
      = phase1Go frame l2 (phase1Go frame l1 acc) := by
  induction l1 with
  | nil => intro acc; rfl
  | cons p l1 ih =>
      intro acc
      obtain ⟨u, m, st⟩ := acc
      simp only [List.cons_append, phase1Go]
      cases (matchPool st p.2 st.active frame).1 with
      | none => exact ih _
      | some g =>
          dsimp only
          by_cases hu : u.contains g = true
          · simp only [if_pos hu]
            exact ih _
          · simp only [if_neg hu]
            exact ih _

theorem phase1Go_reach (st0 : IMState) (frame : ℤ) :
    ∀ (l : List (ℕ × Det)) (seen : List Det) (u : List ℤ)
      (m : List (ℕ × ℤ)) (A : List (ℤ × TrackRec)),
    activeReach st0 seen frame A →
    ∃ A2,
      (phase1Go frame l (u, m, { st0 with active := A })).2.2
        = { st0 with active := A2 } ∧
      activeReach st0 (seen ++ l.map Prod.snd) frame A2 ∧
      ∀ j : ℕ, alookup m j = none → j ∉ l.map Prod.fst →
        alookup (phase1Go frame l (u, m, { st0 with active := A })).2.1 j
          = none := by
  intro l
  induction l with
  | nil =>
      intro seen u m A hA
      refine ⟨A, rfl, ?_, fun j hj _ => hj⟩
      simpa using hA
  | cons p l ih =>
      intro seen u m A hA
      have hsub1 : ∀ d ∈ seen, d ∈ seen ++ [p.2] := fun d hd =>
        List.mem_append_left _ hd
      have hfix : ∀ (A3 : List (ℤ × TrackRec)),
          activeReach st0 ((seen ++ [p.2]) ++ l.map Prod.snd) frame A3 →
          activeReach st0 (seen ++ (p :: l).map Prod.snd) frame A3 := by
        intro A3 h3
        refine activeReach_mono st0 frame _ _ A3 ?_ h3
        intro d hd
        simp only [List.append_assoc, List.singleton_append] at hd
        simpa using hd
      simp only [phase1Go]
      rcases matchPool_cases { st0 with active := A } p.2 A frame with
        heq | ⟨gid, item, pos, hmem, heq⟩
      · rw [heq]
        obtain ⟨A2, h1, h2, h3⟩ := ih (seen ++ [p.2]) u m A
          (activeReach_mono st0 frame seen _ A hsub1 hA)
        refine ⟨A2, h1, hfix A2 h2, ?_⟩
        intro j hj hjl
        refine h3 j hj ?_
        intro hc
        exact hjl (by simp [List.mem_cons]; right; simpa using hc)
      · have hA2 : activeReach st0 (seen ++ [p.2]) frame
            (ainsert A gid (mkHybrid item p.2 frame)) := by
          intro r hr
          rcases ainsert_mem A gid (mkHybrid item p.2 frame) r hr with h1 | h1
          · exact activeReach_mono st0 frame seen _ A hsub1 hA r h1
          · rcases hA (gid, item) hmem with horig | ⟨q, hq, d, hd, he⟩
            · refine Or.inr ⟨(gid, item), horig, p.2,
                List.mem_append_right _ (List.mem_singleton_self _), ?_⟩
              rw [h1]
            · refine Or.inr ⟨q, hq, p.2,
                List.mem_append_right _ (List.mem_singleton_self _), ?_⟩
              rw [h1]
              unfold mkHybrid
              have hcls : item.cls = q.2.cls := by
                have hit : item = mkHybrid q.2 d frame := he
                rw [hit]
                rfl
              rw [hcls]
        rw [heq]
        dsimp only
        by_cases hu : u.contains gid = true
        · simp only [if_pos hu]
          obtain ⟨A2, h1, h2, h3⟩ := ih (seen ++ [p.2]) u m
            (ainsert A gid (mkHybrid item p.2 frame)) hA2
          refine ⟨A2, h1, hfix A2 h2, ?_⟩
          intro j hj hjl
          refine h3 j hj ?_
          intro hc
          exact hjl (by simp [List.mem_cons]; right; simpa using hc)
        · simp only [if_neg hu]
          obtain ⟨A2, h1, h2, h3⟩ := ih (seen ++ [p.2]) (gid :: u)
            (ainsert m p.1 gid) (ainsert A gid (mkHybrid item p.2 frame)) hA2
          refine ⟨A2, h1, hfix A2 h2, ?_⟩
          intro j hj hjl
          have hjp : j ≠ p.1 := by
            intro hc
            exact hjl (by simp [hc])
          refine h3 j ?_ ?_
          · rw [alookup_ainsert, if_neg hjp]
            exact hj
          · intro hc
            exact hjl (by simp [List.mem_cons]; right; simpa using hc)

theorem matchPool_skip_at (st0 : IMState) (frame : ℤ) (det : Det)
    (hOrig : ∀ q ∈ st0.active, ¬ eligible st0 frame det q.2)
    (seen : List Det)
    (hHyb : ∀ q ∈ st0.active, ∀ d ∈ seen,
      ¬ eligible st0 frame det (mkHybrid q.2 d frame))
    (A : List (ℤ × TrackRec)) (hA : activeReach st0 seen frame A) :
    matchPool { st0 with active := A } det A frame
      = (none, A, { st0 with active := A }) := by
  refine matchPool_ineligible _ det A frame ?_
  intro r hr
  rw [eligible_active_update]
  rcases hA r hr with h1 | ⟨q, hq, d, hd, he⟩
  · exact hOrig r h1
  · rw [he]
    exact hHyb q hq d hd

theorem enumFrom_append {α : Type} (l1 l2 : List α) :
    ∀ n : ℕ, List.enumFrom n (l1 ++ l2)
      = List.enumFrom n l1 ++ List.enumFrom (n + l1.length) l2 := by
  induction l1 with
  | nil => intro n; simp
  | cons x l1 ih =>
      intro n
      simp only [List.cons_append, List.enumFrom_cons, ih (n + 1),
        List.length_cons]
      have hn : n + 1 + l1.length = n + (l1.length + 1) := by omega
      rw [hn]

theorem enum_decomp {α : Type} (xs : List α) (i : ℕ) (hi : i < xs.length) :
    ∃ pre post, xs.enum = pre ++ (i, xs.get ⟨i, hi⟩) :: post ∧
      pre.map Prod.snd = xs.take i ∧
      (∀ p ∈ pre, p.1 < i) ∧ (∀ p ∈ post, i < p.1) := by
  refine ⟨List.enumFrom 0 (xs.take i), List.enumFrom (i + 1) (xs.drop (i + 1)),
    ?_, List.enumFrom_map_snd 0 _, ?_, ?_⟩
  · have hlen : (xs.take i).length = i := List.length_take_of_le (le_of_lt hi)
    have hdrop : xs.drop i = xs.get ⟨i, hi⟩ :: xs.drop (i + 1) := by
      rw [List.drop_eq_getElem_cons hi]
      simp [List.get_eq_getElem]
    calc xs.enum = List.enumFrom 0 (xs.take i ++ xs.drop i) := by
          rw [List.take_append_drop]
          rfl
      _ = List.enumFrom 0 (xs.take i)
          ++ List.enumFrom (0 + (xs.take i).length) (xs.drop i) :=
          enumFrom_append _ _ 0
      _ = _ := by
          rw [hlen, hdrop, Nat.zero_add, List.enumFrom_cons]
  · intro p hp
    have h := List.fst_lt_add_of_mem_enumFrom hp
    rw [List.length_take_of_le (le_of_lt hi)] at h
    omega
  · intro p hp
    have h := List.le_fst_of_mem_enumFrom hp
    omega

theorem phase2Go_skip (st0 : IMState) (frame : ℤ) (i : ℕ) (det : Det)
    (hinact : ∀ q ∈ st0.inactive, ¬ eligible st0 frame det q.2) :
    ∀ (l : List (ℕ × Det)) (u : List ℤ) (m : List (ℕ × ℤ))
      (A I : List (ℤ × TrackRec)),
    (∀ p ∈ l, p.1 = i → p.2 = det) →
    (∀ q ∈ I, q ∈ st0.inactive) →
    alookup m i = none →
    alookup (phase2Go frame l
      (u, m, { st0 with active := A, inactive := I })).2.1 i = none := by
  intro l
  induction l with
  | nil =>
      intro u m A I hk hI hm
      exact hm
  | cons p l ih =>
      intro u m A I hk hI hm
      simp only [phase2Go]
      by_cases hmm : (alookup m p.1).isSome
      · rw [if_pos hmm]
        exact ih u m A I (fun r hr => hk r (List.mem_cons_of_mem p hr)) hI hm
      · rw [if_neg hmm]
        rcases matchPool_cases { st0 with active := A, inactive := I } p.2 I
          frame with heq | ⟨gid, item, pos, hmem2, heq⟩
        · rw [heq]
          dsimp only
          exact ih u m A I (fun r hr => hk r (List.mem_cons_of_mem p hr)) hI hm
        · by_cases hpi : p.1 = i
          · exfalso
            have hdet : p.2 = det := hk p (List.mem_cons_self p l) hpi
            have hnone := matchPool_ineligible
              { st0 with active := A, inactive := I } p.2 I frame ?_
            · rw [heq] at hnone
              simp at hnone
            · intro r hr
              rw [eligible_pools_update, hdet]
              exact hinact r (hI r hr)
          · rw [heq]
            dsimp only
            have hI2 : ∀ q ∈ I.eraseIdx pos, q ∈ st0.inactive := fun q hq =>
              hI q ((List.eraseIdx_sublist I pos).mem hq)
            have hk2 : ∀ r ∈ l, r.1 = i → r.2 = det := fun r hr =>
              hk r (List.mem_cons_of_mem p hr)
            by_cases hu : u.contains gid = true
            · simp only [if_pos hu]
              exact ih u m (ainsert A gid (mkHybrid item p.2 frame))
                (I.eraseIdx pos) hk2 hI2 hm
            · simp only [if_neg hu]
              refine ih (gid :: u) (ainsert m p.1 gid)
                (ainsert A gid (mkHybrid item p.2 frame))
                (I.eraseIdx pos) hk2 hI2 ?_
              rw [alookup_ainsert]
              have hip : i ≠ p.1 := fun hc => hpi hc.symm
              rw [if_neg hip]
              exact hm

theorem intRange_le_mem (a : ℤ) (n : ℕ) : ∀ x ∈ intRange a n, a ≤ x := by
  intro x hx
  unfold intRange at hx
  obtain ⟨i0, hi0, rfl⟩ := List.mem_map.mp hx
  omega

theorem phase3Go_unmapped_alloc (frame : ℤ) :
    ∀ (l : List (ℕ × Det)) (u : List ℤ) (m : List (ℕ × ℤ)) (a : List ℤ)
      (st : IMState) (p : ℕ × Det),
    p ∈ l → alookup m p.1 = none →
    ∃ gg, alookup (phase3Go frame l (u, m, a, st)).2.1 p.1 = some gg ∧
      gg ∈ (phase3Go frame l (u, m, a, st)).2.2.1 := by
  intro l
  induction l with
  | nil =>
      intro u m a st p hp hm
      cases hp
  | cons q l ih =>
      intro u m a st p hp hm
      simp only [phase3Go]
      by_cases hq : (alookup m q.1).isSome
      · rw [if_pos hq]
        have hne : p.1 ≠ q.1 := by
          intro hc
          rw [← hc, hm] at hq
          simp at hq
        have hpl : p ∈ l := by
          rcases List.mem_cons.mp hp with rfl | h
          · exact absurd rfl hne
          · exact h
        exact ih u m a st p hpl hm
      · rw [if_neg hq]
        by_cases hpq : p.1 = q.1
        · refine ⟨st.next_gid, ?_, ?_⟩
          · refine phase3Go_preserve frame l _ _ _ _ p.1 st.next_gid ?_
            rw [alookup_ainsert, if_pos hpq]
          · obtain ⟨k, aq, hal, hst⟩ := phase3Go_spec frame l
              (st.next_gid :: u) (ainsert m q.1 st.next_gid)
              (a ++ [st.next_gid])
              { st with next_gid := st.next_gid + 1,
                        active := ainsert st.active st.next_gid
                          ⟨q.2.cls_idx, q.2.bbox, q.2.center, frame⟩ }
            rw [hal]
            exact List.mem_append_left _
              (List.mem_append_right _ (List.mem_singleton_self _))
        · have hpl : p ∈ l := by
            rcases List.mem_cons.mp hp with rfl | h
            · exact absurd rfl hpq
            · exact h
          refine ih _ _ _ _ p hpl ?_
          rw [alookup_ainsert, if_neg hpq]
          exact hm

theorem assign_fresh_per_det (st : IMState) (frame : ℤ) (dets : List Det)
    (i : ℕ) (hi : i < dets.length)
    (h1 : ∀ p ∈ st.active ++ st.inactive,
      ¬ eligible st frame (dets.get ⟨i, hi⟩) p.2)
    (h2 : ∀ q ∈ st.active, ∀ d ∈ dets.take i,
      ¬ eligible st frame (dets.get ⟨i, hi⟩) (mkHybrid q.2 d frame)) :
    ∃ gg, alookup (assign st frame dets).mapping i = some gg ∧
      gg ∈ (assign st frame dets).alloc ∧ st.next_gid ≤ gg := by
  obtain ⟨pre, post, hsplit, hpresnd, hprelt, hpostgt⟩ := enum_decomp dets i hi
  have hOrig : ∀ q ∈ st.active, ¬ eligible st frame (dets.get ⟨i, hi⟩) q.2 :=
    fun q hq => h1 q (List.mem_append_left _ hq)
  have hInact : ∀ q ∈ st.inactive,
      ¬ eligible st frame (dets.get ⟨i, hi⟩) q.2 :=
    fun q hq => h1 q (List.mem_append_right _ hq)
  have hinotpre : i ∉ pre.map Prod.fst := by
    intro hc
    obtain ⟨p0, hp0, hp0i⟩ := List.mem_map.mp hc
    have := hprelt p0 hp0
    omega
  have hinotpost : i ∉ post.map Prod.fst := by
    intro hc
    obtain ⟨p0, hp0, hp0i⟩ := List.mem_map.mp hc
    have := hpostgt p0 hp0
    omega
  obtain ⟨A1, hA1eq, hA1reach, hA1map⟩ := phase1Go_reach st frame pre [] [] []
    st.active (fun p hp => Or.inl hp)
  have hreach : activeReach st (dets.take i) frame A1 := by
    have h := hA1reach
    rw [List.nil_append, hpresnd] at h
    exact h
  have hmapP : alookup (phase1Go frame pre
      ([], [], { st with active := st.active })).2.1 i = none :=
    hA1map i rfl hinotpre
  have hskip := matchPool_skip_at st frame (dets.get ⟨i, hi⟩) hOrig
    (dets.take i) h2 A1 hreach
  have hc1 : phase1Go frame dets.enum ([], [], st)
      = phase1Go frame post
          ((phase1Go frame pre ([], [], { st with active := st.active })).1,
           (phase1Go frame pre ([], [], { st with active := st.active })).2.1,
           { st with active := A1 }) := by
    conv_lhs => rw [hsplit]
    rw [phase1Go_append]
    have hPeta : phase1Go frame pre
        (([], [], st) : List ℤ × List (ℕ × ℤ) × IMState)
        = ((phase1Go frame pre ([], [], { st with active := st.active })).1,
           (phase1Go frame pre ([], [], { st with active := st.active })).2.1,
           (phase1Go frame pre
             ([], [], { st with active := st.active })).2.2) := rfl
    rw [hPeta, hA1eq]
    simp only [phase1Go]
    rw [hskip]
  obtain ⟨A2, hA2eq, _, hA2map⟩ := phase1Go_reach st frame post (dets.take i)
    (phase1Go frame pre ([], [], { st with active := st.active })).1
    (phase1Go frame pre ([], [], { st with active := st.active })).2.1
    A1 hreach
  have hm1 : alookup (phase1Go frame dets.enum ([], [], st)).2.1 i = none := by
    rw [hc1]
    exact hA2map i hmapP hinotpost
  have hst1 : (phase1Go frame dets.enum ([], [], st)).2.2
      = { st with active := A2 } := by
    rw [hc1]
    exact hA2eq
  have hkeys : ∀ p ∈ dets.enum, p.1 = i → p.2 = dets.get ⟨i, hi⟩ := by
    intro p hp hpi
    rw [hsplit] at hp
    rcases List.mem_append.mp hp with hpre | hmid
    · have := hprelt p hpre
      exact absurd hpi (by omega)
    · rcases List.mem_cons.mp hmid with rfl | hpost
      · rfl
      · have := hpostgt p hpost
        exact absurd hpi (by omega)
  have hm2 : alookup (phase2Go frame dets.enum
      (phase1Go frame dets.enum ([], [], st))).2.1 i = none := by
    have heta2 : phase2Go frame dets.enum (phase1Go frame dets.enum ([], [], st))
        = phase2Go frame dets.enum
            ((phase1Go frame dets.enum ([], [], st)).1,
             (phase1Go frame dets.enum ([], [], st)).2.1,
             (phase1Go frame dets.enum ([], [], st)).2.2) := rfl
    rw [heta2, hst1]
    exact phase2Go_skip st frame i (dets.get ⟨i, hi⟩) hInact dets.enum
      (phase1Go frame dets.enum ([], [], st)).1
      (phase1Go frame dets.enum ([], [], st)).2.1
      A2 st.inactive hkeys (fun q hq => hq) hm1
  have hmem_enum : ((i, dets.get ⟨i, hi⟩) : ℕ × Det) ∈ dets.enum := by
    rw [hsplit]
    exact List.mem_append_right _ (List.mem_cons_self _ _)
  obtain ⟨gg, hgg, hggalloc⟩ := phase3Go_unmapped_alloc frame dets.enum
    (phase2Go frame dets.enum (phase1Go frame dets.enum ([], [], st))).1
    (phase2Go frame dets.enum (phase1Go frame dets.enum ([], [], st))).2.1 []
    (phase2Go frame dets.enum (phase1Go frame dets.enum ([], [], st))).2.2
    (i, dets.get ⟨i, hi⟩) hmem_enum hm2
  refine ⟨gg, hgg, hggalloc, ?_⟩
  obtain ⟨k, hak, _⟩ := assign_alloc st frame dets
  have hmem2 : gg ∈ (assign st frame dets).alloc := hggalloc
  rw [hak] at hmem2
  exact intRange_le_mem _ _ gg hmem2

/-- C3: `assign` rejects no detection — the returned mapping is defined
at every detection index, with no error path (totality).  And per
detection, in any frame (the other detections may match freely): if
detection `i` is ineligible — farther than `reid_max_radius_px`, or age
outside `[0, reid_max_frames]`, or continuity-incompatible — against
every record of the active and inactive pools as they stand at call
entry, and against every active record as an earlier detection of the
same frame may have re-stamped it in place (`mkHybrid`: same class, that
detection's bbox/center, the current frame — the only mutation
`_match_pool` can apply before `i`'s turn), then `i` receives a freshly
allocated identity: its gid is one of this call's `_new_gid` allocations
and is at least the entry `next_gid`. -/
theorem assign_total_and_fresh (st : IMState) (frame : ℤ) (dets : List Det) :
    (∀ i : ℕ, i < dets.length →
      (alookup (assign st frame dets).mapping i).isSome) ∧
    (∀ (i : ℕ) (hi : i < dets.length),
      (∀ p ∈ st.active ++ st.inactive,
        ¬ eligible st frame (dets.get ⟨i, hi⟩) p.2) →
      (∀ q ∈ st.active, ∀ d ∈ dets.take i,
        ¬ eligible st frame (dets.get ⟨i, hi⟩) (mkHybrid q.2 d frame)) →
      ∃ gg, alookup (assign st frame dets).mapping i = some gg ∧
        gg ∈ (assign st frame dets).alloc ∧ st.next_gid ≤ gg) := by
  constructor
  · intro i hi
    have hmem : i ∈ dets.enum.map Prod.fst := by
      rw [List.enum_map_fst]
      exact List.mem_range.mpr hi
    obtain ⟨p, hp, hpi⟩ := List.mem_map.mp hmem
    have htot := phase3Go_total frame dets.enum
      (phase2Go frame dets.enum (phase1Go frame dets.enum ([], [], st))).1
      (phase2Go frame dets.enum (phase1Go frame dets.enum ([], [], st))).2.1
      []
      (phase2Go frame dets.enum (phase1Go frame dets.enum ([], [], st))).2.2
      p hp
    rw [hpi] at htot
    exact htot
  · intro i hi h1 h2
    exact assign_fresh_per_det st frame dets i hi h1 h2

/-- C3 witness (a mixed frame): with one active track at the origin and
radius 10, the first detection (at (1,0)) matches it, while the second
(at (50,0)) is out of radius of the original record and of its possible
re-stamp by the first detection — it is mapped, and mapped to a freshly
allocated gid of this call. -/
theorem assign_total_and_fresh_witness :
    (alookup (assign stW3 1 detsW3).mapping 0).isSome ∧
    ∃ gg, alookup (assign stW3 1 detsW3).mapping 1 = some gg ∧
      gg ∈ (assign stW3 1 detsW3).alloc ∧ stW3.next_gid ≤ gg :=
  ⟨(assign_total_and_fresh stW3 1 detsW3).1 0 (by norm_num [detsW3]),
   (assign_total_and_fresh stW3 1 detsW3).2 1 (by norm_num [detsW3])
     (by
       intro p hp
       simp only [stW3, detsW3, List.append_nil] at hp
       rcases List.mem_singleton.mp hp with rfl
       norm_num [eligible, dist2, same_continuity_class, stW3, detsW3,
         List.get])
     (by
       intro q hq d hd
       simp only [stW3] at hq
       rcases List.mem_singleton.mp hq with rfl
       simp only [detsW3, List.take_succ_cons, List.take_zero] at hd
       rcases List.mem_singleton.mp hd with rfl
       norm_num [eligible, dist2, same_continuity_class, mkHybrid, stW3,
         detsW3, List.get])⟩

end SkySentry
